import Mathlib

/-!
Rank-indexed sparse array (`array.Base`) and the generated integer codecs:
embedding and properties.

A shallow embedding of `src/array/base.go` and of the code instantiated by
`src/marshal/gen/impl_gen.go`.

* Go `int32` values are integers wrapped by `toInt32`; Go `int` values are
  integers, and an `int` has 64 bits: the one product of `int` values the code
  forms, `eltsize * n` in `InitElts`, is wrapped by `toInt64`.
* A `[]byte` is a list of byte values, a `[]uint64` a list of naturals, a
  `[]int32` a list of integers.
* A Go function with a pointer receiver becomes a function from the receiver
  value to the new receiver value and the returned results.
* A runtime panic is the outer `none` of the result.
-/

namespace array

/-- The errors `Init` and `InitIndex` can return.  `other` stands for an error
produced by the codec resolver, `Wrapf` for `errors.Wrapf`. -/
inductive GoError where
  | ErrIndexNotAscending : GoError
  | ErrIndexLen : GoError
  | other : Nat → GoError
  | Wrapf : GoError → String → GoError
  deriving DecidableEq, Repr

/-- Conversion to `int32`: the low 32 bits of `x`, read as a two's-complement
number (`2^32` is subtracted when bit 31 is set).  The result is the integer of
`[-2^31, 2^31)` congruent to `x` modulo `2^32`. -/
def toInt32 (x : Int) : Int := x % 2 ^ 32 - 2 ^ 32 * (x % 2 ^ 32 / 2 ^ 31)

/-- Modelled from the spec: the element codec interface `encode.Encoder`
(package `encode` is not under src/), spec section 6: `EncodedSize`, `Encode`
and `Decode`.  `GetEncodedSize` is the value of `GetEncodedSize(nil)`, a Go
`int`; `Decode` yields the number of bytes consumed and the value. -/
structure Encoder (V : Type) where
  GetEncodedSize : Int
  Encode : V → List Nat
  Decode : List Nat → Int × V

/-- The struct `Base`: the embedded `Array32` fields `Cnt`, `Bitmaps`,
`Offsets`, `Elts`, and `EltEncoder`, which is `none` for a nil interface. -/
structure Base (V : Type) where
  Cnt : Int
  Bitmaps : List Nat
  Offsets : List Int
  Elts : List Nat
  EltEncoder : Option (Encoder V)

/-- The zero value of `Base`. -/
def Base.zero (V : Type) : Base V :=
  { Cnt := 0, Bitmaps := [], Offsets := [], Elts := [], EltEncoder := none }

end array

namespace bitmap

/-- Number of set bits of `w` at the bit positions below `j`. -/
def onesBelow (w : Nat) (j : Nat) : Nat :=
  ((List.range j).filter (fun k => w.testBit k)).length

/-- Population count of a 64-bit word. -/
def OnesCount64 (w : Nat) : Nat := onesBelow w 64

/-- The word number `w` of the bit vector that marks the positions `ps`: bit
`j` is set exactly when position `64 * w + j` is one of `ps`. -/
def wordOf (ps : List Nat) (w : Nat) : Nat :=
  ((List.range 64).map (fun j => if 64 * w + j ∈ ps then 2 ^ j else 0)).sum

/-- Number of 64-bit words that cover the positions `ps`: none for no
position, otherwise enough for the largest one. -/
def wordsFor (ps : List Nat) : Nat :=
  match ps with
  | [] => 0
  | p :: rest => (rest.foldl max p + 1 + 63) / 64

/-- Modelled from the spec: `bitmap.Of` of the external bitmap package (spec
section 4.1, `BuildBitmap`, and section 6, `Of`): from an ordered sequence of
non-negative integers, the bit vector sized to cover the maximum index in which
bit `i` is set exactly when `i` is one of the indices.  A negative index is
outside that contract and has no bit position; there is no result for it. -/
def Of (bitPositions : List Int) : Option (List Nat) :=
  if bitPositions.all (fun i => decide (0 ≤ i)) then
    let ps := bitPositions.map Int.toNat
    some ((List.range (wordsFor ps)).map (wordOf ps))
  else none

/-- Modelled from the spec: `bitmap.IndexRank64` of the external bitmap
package (spec section 4.1, `BuildRankTable`): one entry per word, the rank of
word `k` being the total number of set bits in the words `0..k-1`. -/
def IndexRank64 (words : List Nat) : List Int :=
  (List.range words.length).map
    (fun k => (((words.take k).map OnesCount64).sum : Int))

/-- Modelled from the spec: `bitmap.Rank64` of the external bitmap package
(spec section 4.1, `RankAndTest`, and invariant 3 of section 3): the rank is
the rank-table entry of the word of `i` plus the population count of the bits
below `i` within that word, the second result is the bit at `i` (1 or 0).  An
index outside the bitmap is reported as not present (spec section 4.6). -/
def Rank64 (words : List Nat) (rindex : List Int) (i : Int) : Int × Int :=
  if 0 ≤ i ∧ i / 64 < words.length then
    let w := words.getD (i / 64).toNat 0
    let j := (i % 64).toNat
    (rindex.getD (i / 64).toNat 0 + (onesBelow w j : Int), ((w / 2 ^ j % 2 : Nat) : Int))
  else (0, 0)

/-- Number of positions below `n` that belong to `ps`. -/
def countBelow (ps : List Nat) (n : Nat) : Nat :=
  ((List.range n).filter (fun p => decide (p ∈ ps))).length

end bitmap

namespace array

/-- The loop at the head of `InitIndex`: `false` as soon as an adjacent pair
has `index[i] >= index[i+1]`, `true` when the scan finds none. -/
def ascendingScan : List Int → Bool
  | a :: b :: rest => if a ≥ b then false else ascendingScan (b :: rest)
  | _ => true

/-- The loop at the end of `InitIndex`: for each word that is zero, the entry
of `offsets` at the same position is set to 0.  (`IndexRank64` yields one entry
per word, so the position is always inside `offsets`.) -/
def zeroEmptyWords (bitmaps : List Nat) (offsets : List Int) : List Int :=
  bitmaps.enum.foldl
    (fun offs iw => if iw.2 = 0 then offs.set iw.1 0 else offs) offsets

/-- `Base.InitIndex`.  The result is the receiver after the call and the
returned error (`none` for nil). -/
def Base.InitIndex {V : Type} (a : Base V) (index : List Int) :
    Option (Base V × Option GoError) :=
  if ascendingScan index = false then some (a, some GoError.ErrIndexNotAscending)
  else
    match bitmap.Of index with
    | none => none
    | some bm =>
      some ({ a with
                Bitmaps := bm
                Offsets := zeroEmptyWords bm (bitmap.IndexRank64 bm)
                Cnt := toInt32 index.length }, none)

/-- Conversion to `int`, which has 64 bits: the low 64 bits of `x`, read as a
two's-complement number.  The result is the integer of `[-2^63, 2^63)`
congruent to `x` modulo `2^64`. -/
def toInt64 (x : Int) : Int := x % 2 ^ 64 - 2 ^ 64 * (x % 2 ^ 64 / 2 ^ 63)

/-- The constant `maxAlloc` of the Go runtime on a 64-bit platform, `1 << 48`:
the largest number of bytes a slice can hold.  `make` panics for a capacity
above it and for a negative capacity (`makeslice: cap out of range`), `append`
panics for a length above it (`growslice: len out of range`). -/
def maxAlloc : Int := 2 ^ 48

/-- The capacity `sz := eltsize * n` that `InitElts` passes to `make`, a
product of two `int` values. -/
def InitElts.sz {V : Type} (elts : List V) (encoder : Encoder V) : Int :=
  toInt64 (encoder.GetEncodedSize * elts.length)

/-- `Base.InitElts`: `make([]byte, 0, sz)` panics for a capacity `sz` that is
negative or above `maxAlloc`; then the encodings are appended in input order,
and `append` panics when the buffer would grow beyond `maxAlloc` bytes.  The
result is the receiver after the call and the returned pair `(n, error)`.
Whether the machine has the memory for a buffer within these limits is not
part of the model. -/
def Base.InitElts {V : Type} (a : Base V) (elts : List V) (encoder : Encoder V) :
    Option (Base V × (Int × Option GoError)) :=
  if InitElts.sz elts encoder < 0 ∨ maxAlloc < InitElts.sz elts encoder then none
  else
    let b := elts.foldl (fun b ee => b ++ encoder.Encode ee) []
    if maxAlloc < (b.length : Int) then none
    else some ({ a with Elts := b }, ((elts.length : Int), none))

/-- The choice of the encoder in `Init`: the codec resolver applied to the
first element when `EltEncoder` is nil, otherwise `EltEncoder`.
`NewTypeEncoderEndian` is the codec resolver of package `encode` (not under
src/); it is a parameter. -/
def Base.resolveEncoder {V : Type} (NewTypeEncoderEndian : V → Except GoError (Encoder V))
    (a : Base V) (e0 : V) : Except GoError (Encoder V) :=
  match a.EltEncoder with
  | none => NewTypeEncoderEndian e0
  | some enc => Except.ok enc

/-- `Base.Init`.  The result is the receiver after the call and the returned
error (`none` for nil).  `elts` is a slice by its type, so the
`reflect.Slice` panic does not arise. -/
def Base.Init {V : Type} (NewTypeEncoderEndian : V → Except GoError (Encoder V))
    (a : Base V) (indexes : List Int) (elts : List V) :
    Option (Base V × Option GoError) :=
  if indexes.length ≠ elts.length then some (a, some GoError.ErrIndexLen)
  else
    match a.InitIndex indexes with
    | none => none
    | some (a1, some err) => some (a1, some err)
    | some (a1, none) =>
      if indexes.length = 0 then some (a1, none)
      else
        match elts with
        | [] => none
        | e0 :: _ =>
          match a1.resolveEncoder NewTypeEncoderEndian e0 with
          | Except.error err => some (a1, some err)
          | Except.ok encoder =>
            match a1.InitElts elts encoder with
            | none => none
            | some (a2, (_, some err)) => some (a2, some (GoError.Wrapf err "failure Init Array"))
            | some (a2, (_, none)) => some (a2, none)

/-- `Base.GetBytes`.  Inner `none` is the result `(nil, false)`, inner
`some bs` is `(bs, true)`; the outer `none` is the panic of a slice expression
out of bounds.  The upper bound is checked against `len(a.Elts)`, which is the
capacity of every buffer that `InitElts` fills with encodings of the size
`GetEncodedSize` reports. -/
def Base.GetBytes {V : Type} (a : Base V) (idx : Int) (eltsize : Int) :
    Option (Option (List Nat)) :=
  let rb := bitmap.Rank64 a.Bitmaps a.Offsets idx
  if rb.2 = 0 then some none
  else
    let stIdx := toInt32 (toInt32 eltsize * rb.1)
    let hi := toInt32 (stIdx + toInt32 eltsize)
    if 0 ≤ stIdx ∧ stIdx ≤ hi ∧ hi ≤ a.Elts.length then
      some (some ((a.Elts.drop stIdx.toNat).take (hi - stIdx).toNat))
    else none

/-- `Base.Get`.  Inner `none` is the result `(nil, false)`, inner `some v` is
`(v, true)`; the outer `none` is a panic: the method call on a nil
`EltEncoder`, or the panic of `GetBytes`. -/
def Base.Get {V : Type} (a : Base V) (idx : Int) : Option (Option V) :=
  match a.EltEncoder with
  | none => none
  | some enc =>
    match a.GetBytes idx enc.GetEncodedSize with
    | none => none
    | some none => some none
    | some (some bs) => some (some (enc.Decode bs).2)

/-- Whether bit `i` of the bit vector `words` is set. -/
def bitAt (words : List Nat) (i : Nat) : Bool :=
  (words.getD (i / 64) 0).testBit (i % 64)

/-- Modelled from the spec: the codec for 4-byte unsigned integers (spec
section 6: fixed encoded size, little-endian byte order).  A value is a
`uint32` held as a natural number. -/
def U32 : Encoder Nat :=
  { GetEncodedSize := 4
    Encode := fun v => [v % 256, v / 2 ^ 8 % 256, v / 2 ^ 16 % 256, v / 2 ^ 24 % 256]
    Decode := fun b =>
      (4, b.getD 0 0 + 2 ^ 8 * b.getD 1 0 + 2 ^ 16 * b.getD 2 0 + 2 ^ 24 * b.getD 3 0) }

/-- A codec resolver that knows the type of the elements: it yields `U32`. -/
def inferU32 : Nat → Except GoError (Encoder Nat) := fun _ => Except.ok U32

/-- A codec resolver for an unsupported element type: it fails. -/
def inferNone : Nat → Except GoError (Encoder Nat) := fun _ => Except.error (GoError.other 0)

/-- A codec for the one-value type whose encoding takes `2^31` bytes: the
encoded size it reports is the length of every encoding, and decoding gives
the value back. -/
def wideCodec : Encoder Unit :=
  { GetEncodedSize := 2147483648
    Encode := fun _ => List.replicate 2147483648 0
    Decode := fun _ => (2147483648, ()) }

/-- A receiver that already holds an array: the indices `1, 2` with the 4-byte
elements `5, 6`. -/
def heldBase : Base Nat :=
  { Cnt := 2, Bitmaps := [6], Offsets := [0], Elts := [5, 0, 0, 0, 6, 0, 0, 0],
    EltEncoder := some U32 }

/-- The ascending indices `0, 1, ..., n-1`. -/
def firstIndices (n : Nat) : List Int := (List.range n).map Int.ofNat

/-- The bit positions of an index sequence, as naturals. -/
def positions (index : List Int) : List Nat := index.map Int.toNat

/-- The bitmap that `bitmap.Of` builds for non-negative indices. -/
def builtBitmaps (index : List Int) : List Nat :=
  (List.range (bitmap.wordsFor (positions index))).map (bitmap.wordOf (positions index))

/-- The rank table `InitIndex` leaves in `Offsets`. -/
def builtOffsets (index : List Int) : List Int :=
  zeroEmptyWords (builtBitmaps index) (bitmap.IndexRank64 (builtBitmaps index))

/-- The receiver that a successful `Init` leaves. -/
def builtBase {V : Type} (a : Base V) (index : List Int) (elts : List V)
    (encoder : Encoder V) : Base V :=
  { a with
      Bitmaps := builtBitmaps index
      Offsets := builtOffsets index
      Cnt := toInt32 index.length
      Elts := (elts.map encoder.Encode).flatten }

/-- The constant `bmShift`: log₂64. -/
def bmShift : Nat := 6

/-- The constant `bmMask`. -/
def bmMask : Int := 63

/-- `bmBit` calculates the bitmap word index and the bit index in the word:
`idx >> bmShift`, an arithmetic shift, and `idx & bmMask`, the bitwise and of
two's-complement numbers. -/
def bmBit (idx : Int) : Int × Int :=
  let c := idx >>> bmShift
  let r := Int.land idx bmMask
  (c, r)

/-- `InitIndex` with the loop over the all-empty words left out: the rank
table is `Offsets = bitmap.IndexRank64(Bitmaps)` unmodified.  This is not a
function of the source; it is the variant that the rank-table contract of the
specification compares `InitIndex` with. -/
def Base.InitIndexUnmodified {V : Type} (a : Base V) (index : List Int) :
    Option (Base V × Option GoError) :=
  if ascendingScan index = false then some (a, some GoError.ErrIndexNotAscending)
  else
    match bitmap.Of index with
    | none => none
    | some bm =>
      some ({ a with
                Bitmaps := bm
                Offsets := bitmap.IndexRank64 bm
                Cnt := toInt32 index.length }, none)

/-- The byte offset `stIdx := int32(eltsize) * r` that `GetBytes` computes, `r`
being the rank that `bitmap.Rank64` returns for `idx`. -/
def Base.stIdx {V : Type} (a : Base V) (idx : Int) (eltsize : Int) : Int :=
  toInt32 (toInt32 eltsize * (bitmap.Rank64 a.Bitmaps a.Offsets idx).1)

/-- `Base.GetBytes` statement by statement, as a computation on the receiver
`*a`: the state is the receiver, every access to a field reads the receiver as
it is at that point, and an assignment to a field would write it.  A panic ends
the computation with no result (`none`) and with the receiver as it is at the
panic; the result `some none` is `(nil, false)`, `some (some bs)` is
`(bs, true)`. -/
def Base.GetBytes.exec {V : Type} (idx : Int) (eltsize : Int) :
    OptionT (StateM (Base V)) (Option (List Nat)) := do
  let a ← get
  let rb := bitmap.Rank64 a.Bitmaps a.Offsets idx
  if rb.2 = 0 then
    return none
  else
    let stIdx := toInt32 (toInt32 eltsize * rb.1)
    let hi := toInt32 (stIdx + toInt32 eltsize)
    let a ← get
    if 0 ≤ stIdx ∧ stIdx ≤ hi ∧ hi ≤ a.Elts.length then
      return some ((a.Elts.drop stIdx.toNat).take (hi - stIdx).toNat)
    else
      failure

/-- `Base.Get` statement by statement, as a computation on the receiver `*a`:
`a.EltEncoder` is read for `GetEncodedSize(nil)` (a panic when it is nil), then
`GetBytes` runs on the receiver, and when it reports a value `a.EltEncoder` is
read again for `Decode`.  The methods of the encoder are functions of their
arguments (spec section 6). -/
def Base.Get.exec {V : Type} (idx : Int) : OptionT (StateM (Base V)) (Option V) := do
  let a ← get
  match a.EltEncoder with
  | none => failure
  | some enc =>
    let r ← Base.GetBytes.exec idx enc.GetEncodedSize
    match r with
    | none => return none
    | some bs =>
      let a ← get
      match a.EltEncoder with
      | none => failure
      | some dec => return some (dec.Decode bs).2

/-- The outcome of a computation on the receiver `a`: the result (`none` for a
panic) and the receiver after it. -/
def runOn {V α : Type} (m : OptionT (StateM (Base V)) α) (a : Base V) : Option α × Base V :=
  m.run.run a

/-- An encoder that reports a negative encoded size. -/
def negCodec : Encoder Nat :=
  { GetEncodedSize := -1
    Encode := fun _ => []
    Decode := fun _ => (0, 0) }

/-- An encoder that reports the encoded size `2^62`. -/
def hugeCodec : Encoder Nat :=
  { GetEncodedSize := 4611686018427387904
    Encode := fun _ => []
    Decode := fun _ => (0, 0) }

end array

namespace marshal

/-- The Go integer types that the inventory of `impl_gen.go` names. -/
inductive GoInt where
  | uint16 : GoInt
  | uint32 : GoInt
  | uint64 : GoInt
  | int16 : GoInt
  | int32 : GoInt
  | int64 : GoInt
  deriving DecidableEq, Repr

/-- Width of the type in bits. -/
def GoInt.bits : GoInt → Nat
  | GoInt.uint16 => 16
  | GoInt.uint32 => 32
  | GoInt.uint64 => 64
  | GoInt.int16 => 16
  | GoInt.int32 => 32
  | GoInt.int64 => 64

/-- Whether the type is signed. -/
def GoInt.signed : GoInt → Bool
  | GoInt.int16 => true
  | GoInt.int32 => true
  | GoInt.int64 => true
  | _ => false

/-- The values of the type: `[0, 2^bits)` for an unsigned type,
`[-2^(bits-1), 2^(bits-1))` for a signed one. -/
def GoInt.holds (t : GoInt) (x : Int) : Prop :=
  if t.signed then -(2 ^ (t.bits - 1) : Int) ≤ x ∧ x < 2 ^ (t.bits - 1)
  else 0 ≤ x ∧ x < 2 ^ t.bits

/-- Whether a number is a value of the type can be computed. -/
instance GoInt.decidableHolds (t : GoInt) (x : Int) : Decidable (t.holds x) := by
  unfold GoInt.holds
  exact inferInstance

/-- The Go conversion `T(x)` between integer types: the low `bits` bits of
`x`, read as an unsigned number or as a two's-complement number. -/
def GoInt.convert (t : GoInt) (x : Int) : Int :=
  if t.signed then x % 2 ^ t.bits - 2 ^ t.bits * (x % 2 ^ t.bits / 2 ^ (t.bits - 1))
  else x % 2 ^ t.bits

/-- The value `^T(0)`: all bits set. -/
def GoInt.allOnes (t : GoInt) : Int := t.convert (-1)

/-- The `n` low bytes of `v`, least significant first. -/
def bytesLE : Nat → Nat → List Nat
  | 0, _ => []
  | n + 1, v => v % 256 :: bytesLE n (v / 256)

/-- The number that the bytes hold, least significant byte first. -/
def readLE : List Nat → Nat
  | [] => 0
  | b :: bs => b + 256 * readLE bs

/-- `binary.LittleEndian.PutUint16`, `PutUint32` and `PutUint64`, named by the
unsigned type: the bytes of `v` are written at the start of `b`, least
significant first; the call panics when `b` is shorter than the type. -/
def PutUint (t : GoInt) (b : List Nat) (v : Int) : Option (List Nat) :=
  if b.length < t.bits / 8 then none
  else some (bytesLE (t.bits / 8) v.toNat ++ b.drop (t.bits / 8))

/-- `binary.LittleEndian.Uint16`, `Uint32` and `Uint64`, named by the unsigned
type: the number in the first bytes of `b`; the call panics when `b` is shorter
than the type. -/
def Uint (t : GoInt) (b : List Nat) : Option Int :=
  if b.length < t.bits / 8 then none
  else some ((readLE (b.take (t.bits / 8)) : Nat) : Int)

/-- The struct `Inventory` of `impl_gen.go`.  The type names are values of
`GoInt`; `Decoder` names the pair `PutUintN`/`UintN` by its unsigned type. -/
structure Inventory where
  Name : String
  ValType : GoInt
  ValLen : Nat
  Decoder : GoInt
  EncodeCast : GoInt
  deriving DecidableEq, Repr

/-- The inventory `impls` of `main`. -/
def impls : List Inventory :=
  [ { Name := "U16", ValType := GoInt.uint16, ValLen := 2, Decoder := GoInt.uint16,
      EncodeCast := GoInt.uint16 },
    { Name := "U32", ValType := GoInt.uint32, ValLen := 4, Decoder := GoInt.uint32,
      EncodeCast := GoInt.uint32 },
    { Name := "U64", ValType := GoInt.uint64, ValLen := 8, Decoder := GoInt.uint64,
      EncodeCast := GoInt.uint64 },
    { Name := "I16", ValType := GoInt.int16, ValLen := 2, Decoder := GoInt.uint16,
      EncodeCast := GoInt.uint16 },
    { Name := "I32", ValType := GoInt.int32, ValLen := 4, Decoder := GoInt.uint32,
      EncodeCast := GoInt.uint32 },
    { Name := "I64", ValType := GoInt.int64, ValLen := 8, Decoder := GoInt.uint64,
      EncodeCast := GoInt.uint64 } ]

/-- `Marshal` of `implTemplate`, for the value `d` of type `ValType`:
`b := make([]byte, ValLen)`, `v := EncodeCast(d)`, `PutUintN(b, v)`. -/
def Marshal (inv : Inventory) (d : Int) : Option (List Nat) :=
  let b := List.replicate inv.ValLen 0
  let v := inv.EncodeCast.convert d
  PutUint inv.Decoder b v

/-- `Unmarshal` of `implTemplate`: `s := b[:size]`, which panics on a shorter
`b`, then `d := ValType(UintN(s))`; the results are `size` and `d`. -/
def Unmarshal (inv : Inventory) (b : List Nat) : Option (Int × Int) :=
  if b.length < inv.ValLen then none
  else
    match Uint inv.Decoder (b.take inv.ValLen) with
    | none => none
    | some u => some ((inv.ValLen : Int), inv.ValType.convert u)

/-- `GetSize` of `implTemplate`. -/
def GetSize (inv : Inventory) (_d : Int) : Int := inv.ValLen

/-- `GetMarshaledSize` of `implTemplate`. -/
def GetMarshaledSize (inv : Inventory) (_b : List Nat) : Int := inv.ValLen

/-- The four inputs of `testTemplate`: 0, 1, `0x1234` and `^ValType(0)`. -/
def testInputs (inv : Inventory) : List Int := [0, 1, 0x1234, inv.ValType.allOnes]

end marshal

namespace bitmap

theorem sum_bits_lt (P : Nat → Prop) [DecidablePred P] (n : Nat) :
    ((List.range n).map (fun j => if P j then 2 ^ j else 0)).sum < 2 ^ n := by
  induction n with
  | zero => simp
  | succ n ih =>
    rw [List.range_succ, List.map_append, List.sum_append]
    simp only [List.map_cons, List.map_nil, List.sum_cons, List.sum_nil, Nat.add_zero]
    have : (if P n then 2 ^ n else 0) ≤ 2 ^ n := by split <;> simp
    rw [pow_succ]
    omega

theorem testBit_sum_bits (P : Nat → Prop) [DecidablePred P] (n k : Nat) :
    (((List.range n).map (fun j => if P j then 2 ^ j else 0)).sum).testBit k
      = decide (k < n ∧ P k) := by
  induction n with
  | zero => simp
  | succ n ih =>
    rw [List.range_succ, List.map_append, List.sum_append]
    simp only [List.map_cons, List.map_nil, List.sum_cons, List.sum_nil, Nat.add_zero]
    have hlt := sum_bits_lt P n
    rcases Nat.lt_trichotomy k n with hk | hk | hk
    · by_cases hp : P n
      · rw [if_pos hp, Nat.add_comm, Nat.testBit_two_pow_add_gt hk, ih]
        simp [hk, Nat.lt_succ_of_lt hk]
      · rw [if_neg hp, Nat.add_zero, ih]
        simp [hk, Nat.lt_succ_of_lt hk]
    · subst hk
      by_cases hp : P k
      · rw [if_pos hp, Nat.add_comm, Nat.testBit_two_pow_add_eq, Nat.testBit_lt_two_pow hlt]
        simp [hp]
      · rw [if_neg hp, Nat.add_zero, Nat.testBit_lt_two_pow hlt]
        simp [hp]
    · have h2 : ((List.range n).map (fun j => if P j then 2 ^ j else 0)).sum
          + (if P n then 2 ^ n else 0) < 2 ^ k := by
        have h3 : (if P n then 2 ^ n else 0) ≤ 2 ^ n := by split <;> simp
        have h4 : 2 ^ (n + 1) ≤ 2 ^ k := Nat.pow_le_pow_right (by decide) hk
        rw [pow_succ] at h4
        omega
      rw [Nat.testBit_lt_two_pow h2]
      have : ¬ k < n + 1 := by omega
      simp [this]

theorem testBit_wordOf (ps : List Nat) (w k : Nat) :
    (wordOf ps w).testBit k = decide (k < 64 ∧ 64 * w + k ∈ ps) := by
  unfold wordOf
  exact testBit_sum_bits (fun j => 64 * w + j ∈ ps) 64 k

theorem countBelow_add (ps : List Nat) (a b : Nat) :
    countBelow ps (a + b)
      = countBelow ps a + ((List.range b).filter (fun k => decide (a + k ∈ ps))).length := by
  unfold countBelow
  rw [List.range_add, List.filter_append, List.length_append, List.filter_map, List.length_map]
  rfl

theorem onesBelow_wordOf (ps : List Nat) (w j : Nat) (hj : j ≤ 64) :
    onesBelow (wordOf ps w) j
      = ((List.range j).filter (fun k => decide (64 * w + k ∈ ps))).length := by
  unfold onesBelow
  congr 1
  apply List.filter_congr
  intro k hk
  rw [testBit_wordOf]
  have : k < 64 := lt_of_lt_of_le (List.mem_range.mp hk) hj
  simp [this]

theorem sum_ones_take (ps : List Nat) (n k : Nat) (hk : k ≤ n) :
    ((((List.range n).map (wordOf ps)).take k).map OnesCount64).sum
      = countBelow ps (64 * k) := by
  induction k with
  | zero => simp [countBelow]
  | succ k ih =>
    have hk1 : k < ((List.range n).map (wordOf ps)).length := by simp; omega
    rw [List.take_succ, List.getElem?_eq_getElem hk1]
    simp only [Option.toList, List.map_append, List.sum_append, List.map_cons, List.map_nil,
      List.sum_cons, List.sum_nil, Nat.add_zero]
    rw [ih (by omega), Nat.mul_succ, countBelow_add]
    congr 1
    simp only [List.getElem_map, List.getElem_range]
    exact onesBelow_wordOf ps k 64 (le_refl _)

theorem countBelow_eq_filter (ps : List Nat) (hnd : ps.Nodup) (n : Nat) :
    countBelow ps n = (ps.filter (fun p => decide (p < n))).length := by
  unfold countBelow
  have h1 : ((List.range n).filter (fun p => decide (p ∈ ps))).Nodup :=
    (List.nodup_range n).filter _
  have h2 : (ps.filter (fun p => decide (p < n))).Nodup := hnd.filter _
  rw [← List.toFinset_card_of_nodup h1, ← List.toFinset_card_of_nodup h2]
  congr 1
  ext x
  simp only [List.mem_toFinset, List.mem_filter, List.mem_range, decide_eq_true_eq]
  tauto

theorem filter_lt_getElem (ps : List Nat) (hs : ps.Pairwise (· < ·)) (k : Nat)
    (hk : k < ps.length) :
    (ps.filter (fun p => decide (p < ps[k]))).length = k := by
  induction ps generalizing k with
  | nil => simp at hk
  | cons a l ih =>
    rw [List.pairwise_cons] at hs
    cases k with
    | zero =>
      simp only [List.getElem_cons_zero, List.length_eq_zero, List.filter_eq_nil_iff,
        decide_eq_true_eq, List.mem_cons]
      rintro x (rfl | hx)
      · omega
      · have := hs.1 x hx
        omega
    | succ k =>
      simp only [List.length_cons, Nat.succ_lt_succ_iff] at hk
      simp only [List.getElem_cons_succ]
      have ha : a < l[k] := hs.1 _ (List.getElem_mem _)
      rw [List.filter_cons_of_pos (by simpa using ha), List.length_cons, ih hs.2 k hk]

theorem countBelow_getElem (ps : List Nat) (hs : ps.Pairwise (· < ·)) (k : Nat)
    (hk : k < ps.length) : countBelow ps ps[k] = k := by
  have hnd : ps.Nodup := hs.imp (fun h => Nat.ne_of_lt h)
  rw [countBelow_eq_filter ps hnd, filter_lt_getElem ps hs k hk]

theorem countBelow_length (ps : List Nat) (hs : ps.Pairwise (· < ·)) (n : Nat)
    (hn : ∀ p ∈ ps, p < n) : countBelow ps n = ps.length := by
  have hnd : ps.Nodup := hs.imp (fun h => Nat.ne_of_lt h)
  rw [countBelow_eq_filter ps hnd]
  congr 1
  rw [List.filter_eq_self]
  intro p hp
  simpa using hn p hp

theorem le_foldl_max (l : List Nat) (a : Nat) :
    a ≤ l.foldl max a ∧ ∀ x ∈ l, x ≤ l.foldl max a := by
  induction l generalizing a with
  | nil => simp
  | cons b l ih =>
    simp only [List.foldl_cons, List.mem_cons, forall_eq_or_imp]
    have h := ih (max a b)
    refine ⟨le_trans (le_max_left a b) h.1, le_trans (le_max_right a b) h.1, h.2⟩

theorem foldl_max_mem (l : List Nat) (a : Nat) :
    l.foldl max a = a ∨ l.foldl max a ∈ l := by
  induction l generalizing a with
  | nil => simp
  | cons b l ih =>
    simp only [List.foldl_cons, List.mem_cons]
    rcases ih (max a b) with h | h
    · rcases max_choice a b with h2 | h2
      · left; rw [h, h2]
      · right; left; rw [h, h2]
    · right; right; exact h

theorem lt_wordsFor (ps : List Nat) (p : Nat) (hp : p ∈ ps) : p / 64 < wordsFor ps := by
  cases ps with
  | nil => simp at hp
  | cons a l =>
    have h := le_foldl_max l a
    have hle : p ≤ l.foldl max a := by
      rcases List.mem_cons.mp hp with rfl | h2
      · exact h.1
      · exact h.2 p h2
    simp only [wordsFor]
    omega

theorem wordsFor_of_max (ps : List Nat) (m : Nat) (hm : m ∈ ps) (hmax : ∀ p ∈ ps, p ≤ m) :
    wordsFor ps = m / 64 + 1 := by
  cases ps with
  | nil => simp at hm
  | cons a l =>
    have h := le_foldl_max l a
    have h1 : l.foldl max a ≤ m := by
      rcases foldl_max_mem l a with h2 | h2
      · rw [h2]; exact hmax a (List.mem_cons_self _ _)
      · exact hmax _ (List.mem_cons_of_mem _ h2)
    have h2 : m ≤ l.foldl max a := by
      rcases List.mem_cons.mp hm with rfl | h3
      · exact h.1
      · exact h.2 m h3
    have : l.foldl max a = m := le_antisymm h1 h2
    simp only [wordsFor, this]
    omega

end bitmap

namespace array

theorem ascendingScan_iff (l : List Int) :
    ascendingScan l = true ↔ l.Pairwise (· < ·) := by
  rw [← List.chain'_iff_pairwise]
  induction l with
  | nil => simp [ascendingScan]
  | cons a l ih =>
    cases l with
    | nil => simp [ascendingScan]
    | cons b rest =>
      simp only [ascendingScan, List.chain'_cons]
      by_cases h : a ≥ b
      · simp only [h, if_true]
        constructor
        · intro h2; cases h2
        · intro h2; omega
      · simp only [h, if_false]
        rw [ih]
        constructor
        · intro h2; exact ⟨by omega, h2⟩
        · intro h2; exact h2.2

theorem getD_set_zero (l : List Int) (j i : Nat) :
    (l.set j 0).getD i 0 = if i = j then 0 else l.getD i 0 := by
  by_cases h : i = j
  · subst h
    simp only [if_true, List.getD_eq_getElem?_getD]
    by_cases h2 : i < l.length
    · rw [List.getElem?_set_self h2]; rfl
    · rw [List.getElem?_eq_none (by simpa using h2)]; rfl
  · simp only [h, if_false, List.getD_eq_getElem?_getD]
    rw [List.getElem?_set_ne (Ne.symm h)]

theorem foldl_enumFrom_getD (bm : List Nat) (n : Nat) (offs : List Int) (i : Nat) :
    ((bm.enumFrom n).foldl
        (fun offs iw => if iw.2 = 0 then offs.set iw.1 0 else offs) offs).getD i 0
      = if n ≤ i ∧ i - n < bm.length ∧ bm.getD (i - n) 1 = 0 then 0 else offs.getD i 0 := by
  induction bm generalizing n offs with
  | nil => simp
  | cons b bm ih =>
    simp only [List.enumFrom_cons, List.foldl_cons, List.length_cons]
    rw [ih]
    by_cases hi : n + 1 ≤ i
    · have e : i - n = (i - (n + 1)) + 1 := by omega
      have hne : i ≠ n := by omega
      rw [e, List.getD_cons_succ]
      have h3 : (if b = 0 then offs.set n 0 else offs).getD i 0 = offs.getD i 0 := by
        split
        · rw [getD_set_zero]; simp [hne]
        · rfl
      rw [h3]
      have h4 : n ≤ i := by omega
      simp only [hi, h4, true_and, Nat.add_lt_add_iff_right]
    · simp only [hi, false_and, if_false]
      by_cases hin : n = i
      · subst hin
        simp only [le_refl, Nat.sub_self, Nat.zero_lt_succ, List.getD_cons_zero, true_and]
        split
        · rw [getD_set_zero]; simp
        · rfl
      · have h5 : ¬ n ≤ i := by omega
        simp only [h5, false_and, if_false]
        split
        · rw [getD_set_zero]
          have : i ≠ n := fun h => hin h.symm
          simp [this]
        · rfl

theorem foldl_enumFrom_length (bm : List Nat) (n : Nat) (offs : List Int) :
    ((bm.enumFrom n).foldl
        (fun offs iw => if iw.2 = 0 then offs.set iw.1 0 else offs) offs).length
      = offs.length := by
  induction bm generalizing n offs with
  | nil => simp
  | cons b bm ih =>
    simp only [List.enumFrom_cons, List.foldl_cons]
    rw [ih]
    split <;> simp

theorem zeroEmptyWords_length (bm : List Nat) (offs : List Int) :
    (zeroEmptyWords bm offs).length = offs.length :=
  foldl_enumFrom_length bm 0 offs

theorem zeroEmptyWords_getD (bm : List Nat) (offs : List Int) (i : Nat) :
    (zeroEmptyWords bm offs).getD i 0
      = if i < bm.length ∧ bm.getD i 1 = 0 then 0 else offs.getD i 0 := by
  unfold zeroEmptyWords List.enum
  rw [foldl_enumFrom_getD]
  simp

theorem Of_nonneg (index : List Int) (hnn : ∀ x ∈ index, 0 ≤ x) :
    bitmap.Of index = some (builtBitmaps index) := by
  unfold bitmap.Of
  rw [if_pos]
  · rfl
  · simpa using hnn

theorem InitIndex_ok {V : Type} (a : Base V) (index : List Int)
    (hasc : index.Pairwise (· < ·)) (hnn : ∀ x ∈ index, 0 ≤ x) :
    a.InitIndex index
      = some ({ a with
                  Bitmaps := builtBitmaps index
                  Offsets := builtOffsets index
                  Cnt := toInt32 index.length }, none) := by
  unfold Base.InitIndex
  have h : ascendingScan index = true := (ascendingScan_iff index).mpr hasc
  rw [h, Of_nonneg index hnn]
  simp [builtOffsets]

theorem positions_pairwise (index : List Int) (hasc : index.Pairwise (· < ·))
    (hnn : ∀ x ∈ index, 0 ≤ x) : (positions index).Pairwise (· < ·) := by
  unfold positions
  rw [List.pairwise_map]
  refine List.Pairwise.imp_of_mem ?_ hasc
  intro x y hx hy hxy
  have := hnn x hx
  have := hnn y hy
  omega

theorem mem_positions (index : List Int) (hnn : ∀ x ∈ index, 0 ≤ x) (x : Int) (hx : 0 ≤ x) :
    x.toNat ∈ positions index ↔ x ∈ index := by
  unfold positions
  rw [List.mem_map]
  constructor
  · rintro ⟨y, hy, hxy⟩
    have := hnn y hy
    have : y = x := by omega
    rw [← this]; exact hy
  · intro h; exact ⟨x, h, rfl⟩

theorem builtBitmaps_length (index : List Int) :
    (builtBitmaps index).length = bitmap.wordsFor (positions index) := by
  simp [builtBitmaps]

theorem builtBitmaps_getD (index : List Int) (w : Nat) (d : Nat)
    (hw : w < bitmap.wordsFor (positions index)) :
    (builtBitmaps index).getD w d = bitmap.wordOf (positions index) w := by
  unfold builtBitmaps
  rw [List.getD_eq_getElem?_getD, List.getElem?_map, List.getElem?_range hw]
  rfl

theorem IndexRank64_getD (words : List Nat) (w : Nat) (hw : w < words.length) :
    (bitmap.IndexRank64 words).getD w 0
      = (((words.take w).map bitmap.OnesCount64).sum : Int) := by
  unfold bitmap.IndexRank64
  rw [List.getD_eq_getElem?_getD, List.getElem?_map, List.getElem?_range hw]
  rfl

theorem builtOffsets_getD (index : List Int) (w : Nat)
    (hw : w < bitmap.wordsFor (positions index)) :
    (builtOffsets index).getD w 0
      = if bitmap.wordOf (positions index) w = 0 then 0
        else (bitmap.countBelow (positions index) (64 * w) : Int) := by
  unfold builtOffsets
  rw [zeroEmptyWords_getD, builtBitmaps_length, builtBitmaps_getD index w 1 hw]
  simp only [hw, true_and]
  split
  · rfl
  · rw [IndexRank64_getD _ _ (by rw [builtBitmaps_length]; exact hw)]
    unfold builtBitmaps
    rw [bitmap.sum_ones_take _ _ _ (le_of_lt hw)]

theorem bit_of_testBit (w j : Nat) :
    ((w / 2 ^ j % 2 : Nat) : Int) = if w.testBit j then 1 else 0 := by
  rw [Nat.testBit_to_div_mod]
  by_cases h : w / 2 ^ j % 2 = 1
  · simp [h]
  · have : w / 2 ^ j % 2 = 0 := by omega
    simp [this]

theorem wordOf_ne_zero (ps : List Nat) (p : Nat) (hp : p ∈ ps) :
    bitmap.wordOf ps (p / 64) ≠ 0 := by
  intro h
  have h1 := bitmap.testBit_wordOf ps (p / 64) (p % 64)
  rw [h, Nat.zero_testBit] at h1
  have h2 : 64 * (p / 64) + p % 64 = p := Nat.div_add_mod p 64
  have h3 : p % 64 < 64 := Nat.mod_lt _ (by decide)
  rw [h2] at h1
  simp [h3, hp] at h1

/-- The rank lookup on the tables `InitIndex` builds, at an index inside the
bitmap. -/
theorem Rank64_built (index : List Int) (x : Int) (hx : 0 ≤ x)
    (hw : x.toNat / 64 < bitmap.wordsFor (positions index)) :
    bitmap.Rank64 (builtBitmaps index) (builtOffsets index) x
      = ((if bitmap.wordOf (positions index) (x.toNat / 64) = 0 then 0
           else (bitmap.countBelow (positions index) x.toNat : Int)),
         if x.toNat ∈ positions index then 1 else 0) := by
  have e1 : (x / 64).toNat = x.toNat / 64 := by omega
  have e2 : (x % 64).toNat = x.toNat % 64 := by omega
  have hlt : x / 64 < ((builtBitmaps index).length : Int) := by
    rw [builtBitmaps_length]; omega
  have h3 : x.toNat % 64 < 64 := Nat.mod_lt _ (by decide)
  have h2 : 64 * (x.toNat / 64) + x.toNat % 64 = x.toNat := Nat.div_add_mod _ 64
  have hc := bitmap.countBelow_add (positions index) (64 * (x.toNat / 64)) (x.toNat % 64)
  rw [h2] at hc
  unfold bitmap.Rank64
  rw [if_pos ⟨hx, hlt⟩]
  simp only [e1, e2]
  rw [builtBitmaps_getD index _ 0 hw, builtOffsets_getD index _ hw, bit_of_testBit,
    bitmap.testBit_wordOf, bitmap.onesBelow_wordOf _ _ _ (le_of_lt h3), h2]
  rw [Prod.mk.injEq]
  constructor
  · by_cases hz : bitmap.wordOf (positions index) (x.toNat / 64) = 0
    · rw [if_pos hz, if_pos hz]
      have h0 : bitmap.onesBelow (bitmap.wordOf (positions index) (x.toNat / 64))
          (x.toNat % 64) = 0 := by
        rw [hz]
        unfold bitmap.onesBelow
        rw [List.length_eq_zero, List.filter_eq_nil_iff]
        intro k _
        simp
      rw [bitmap.onesBelow_wordOf _ _ _ (le_of_lt h3)] at h0
      rw [h0]
      simp
    · rw [if_neg hz, if_neg hz, hc]
      push_cast
      ring
  · by_cases hm : x.toNat ∈ positions index
    · simp [hm, h3]
    · simp [hm]

theorem Rank64_member (index : List Int) (hasc : index.Pairwise (· < ·))
    (hnn : ∀ x ∈ index, 0 ≤ x) (k : Nat) (hk : k < index.length) :
    bitmap.Rank64 (builtBitmaps index) (builtOffsets index) index[k] = ((k : Int), 1) := by
  have hx : 0 ≤ index[k] := hnn _ (List.getElem_mem _)
  have hkp : k < (positions index).length := by simpa [positions] using hk
  have hpk : (positions index)[k] = index[k].toNat := by simp [positions]
  have hmem : index[k].toNat ∈ positions index := by
    rw [← hpk]; exact List.getElem_mem _
  rw [Rank64_built index _ hx (bitmap.lt_wordsFor _ _ hmem),
    if_neg (wordOf_ne_zero _ _ hmem), if_pos hmem, ← hpk,
    bitmap.countBelow_getElem _ (positions_pairwise index hasc hnn) k hkp]

theorem foldl_append_encode {V : Type} (f : V → List Nat) (l : List V) (acc : List Nat) :
    l.foldl (fun b ee => b ++ f ee) acc = acc ++ (l.map f).flatten := by
  induction l generalizing acc with
  | nil => simp
  | cons a l ih => simp [ih]

theorem flatten_length_uniform {V : Type} (f : V → List Nat) (s : Nat) (l : List V)
    (hs : ∀ v ∈ l, (f v).length = s) : ((l.map f).flatten).length = l.length * s := by
  induction l with
  | nil => simp
  | cons a l ih =>
    simp only [List.map_cons, List.flatten_cons, List.length_append, List.length_cons]
    rw [ih (fun v hv => hs v (List.mem_cons_of_mem _ hv)), hs a (List.mem_cons_self _ _)]
    ring

theorem flatten_slice {V : Type} (f : V → List Nat) (s : Nat) (l : List V)
    (hs : ∀ v ∈ l, (f v).length = s) (k : Nat) (hk : k < l.length) :
    (((l.map f).flatten).drop (s * k)).take s = f l[k] := by
  induction l generalizing k with
  | nil => simp at hk
  | cons a l ih =>
    have ha : (f a).length = s := hs a (List.mem_cons_self _ _)
    simp only [List.map_cons, List.flatten_cons]
    cases k with
    | zero =>
      simp only [Nat.mul_zero, List.drop_zero, List.getElem_cons_zero]
      rw [← ha, List.take_left]
    | succ k =>
      simp only [List.length_cons, Nat.succ_lt_succ_iff] at hk
      have e : s * (k + 1) = (f a).length + s * k := by rw [ha]; ring
      rw [e, List.drop_append, List.getElem_cons_succ]
      exact ih (fun v hv => hs v (List.mem_cons_of_mem _ hv)) k hk

theorem toInt64_of_range (x : Int) (h0 : -2 ^ 63 ≤ x) (h1 : x < 2 ^ 63) : toInt64 x = x := by
  unfold toInt64
  omega

theorem sz_of_fits {V : Type} (elts : List V) (encoder : Encoder V)
    (h0 : 0 ≤ encoder.GetEncodedSize * (elts.length : Int))
    (h1 : encoder.GetEncodedSize * (elts.length : Int) ≤ maxAlloc) :
    InitElts.sz elts encoder = encoder.GetEncodedSize * (elts.length : Int) := by
  unfold InitElts.sz
  unfold maxAlloc at h1
  exact toInt64_of_range _ (by omega) (by omega)

theorem InitElts_ok {V : Type} (a : Base V) (elts : List V) (encoder : Encoder V)
    (hfits : 0 ≤ encoder.GetEncodedSize * (elts.length : Int) ∧
      encoder.GetEncodedSize * (elts.length : Int) ≤ maxAlloc ∧
      (((elts.map encoder.Encode).flatten.length : Nat) : Int) ≤ maxAlloc) :
    a.InitElts elts encoder
      = some ({ a with Elts := (elts.map encoder.Encode).flatten }, ((elts.length : Int), none)) := by
  obtain ⟨h0, h1, h2⟩ := hfits
  unfold Base.InitElts
  rw [sz_of_fits elts encoder h0 h1, foldl_append_encode]
  simp only [List.nil_append]
  rw [if_neg (by omega), if_neg (by omega)]

theorem InitElts_inv {V : Type} (a : Base V) (elts : List V) (encoder : Encoder V)
    (r : Base V × (Int × Option GoError)) (h : a.InitElts elts encoder = some r) :
    0 ≤ InitElts.sz elts encoder ∧ InitElts.sz elts encoder ≤ maxAlloc ∧
      (((elts.map encoder.Encode).flatten.length : Nat) : Int) ≤ maxAlloc ∧
      r = ({ a with Elts := (elts.map encoder.Encode).flatten }, ((elts.length : Int), none)) := by
  unfold Base.InitElts at h
  rw [foldl_append_encode] at h
  simp only [List.nil_append] at h
  split at h
  · cases h
  · rename_i h1
    split at h
    · cases h
    · rename_i h2
      injection h with h
      exact ⟨by omega, by omega, by omega, h.symm⟩

theorem fits_of_int32 (n s : Nat) (h : n * s < 2 ^ 31) : n * s ≤ 2 ^ 48 :=
  Nat.le_of_lt (Nat.lt_trans h (by norm_num))

theorem uniform_fits {V : Type} (encoder : Encoder V) (elts : List V) (s : Nat)
    (hs : encoder.GetEncodedSize = (s : Int))
    (hsize : ∀ v ∈ elts, (encoder.Encode v).length = s)
    (hfit : elts.length * s ≤ 2 ^ 48) :
    0 ≤ encoder.GetEncodedSize * (elts.length : Int) ∧
      encoder.GetEncodedSize * (elts.length : Int) ≤ maxAlloc ∧
      (((elts.map encoder.Encode).flatten.length : Nat) : Int) ≤ maxAlloc := by
  have e : encoder.GetEncodedSize * (elts.length : Int) = ((elts.length * s : Nat) : Int) := by
    rw [hs]; push_cast; ring
  rw [e, flatten_length_uniform encoder.Encode s elts hsize]
  unfold maxAlloc
  refine ⟨Int.natCast_nonneg _, ?_, ?_⟩ <;> exact_mod_cast hfit

theorem resolveEncoder_some {V : Type} (infer : V → Except GoError (Encoder V)) (a : Base V)
    (enc : Encoder V) (henc : a.EltEncoder = some enc) (e0 : V) :
    a.resolveEncoder infer e0 = Except.ok enc := by
  unfold Base.resolveEncoder
  rw [henc]

theorem Init_resolved {V : Type} (infer : V → Except GoError (Encoder V)) (a : Base V)
    (index : List Int) (e0 : V) (rest : List V) (enc : Encoder V)
    (hlen : index.length = (e0 :: rest).length)
    (hasc : index.Pairwise (· < ·)) (hnn : ∀ x ∈ index, 0 ≤ x)
    (hres : a.resolveEncoder infer e0 = Except.ok enc)
    (hfits : 0 ≤ enc.GetEncodedSize * ((e0 :: rest).length : Int) ∧
      enc.GetEncodedSize * ((e0 :: rest).length : Int) ≤ maxAlloc ∧
      ((((e0 :: rest).map enc.Encode).flatten.length : Nat) : Int) ≤ maxAlloc) :
    Base.Init infer a index (e0 :: rest) = some (builtBase a index (e0 :: rest) enc, none) := by
  unfold Base.Init
  rw [if_neg (by simpa using hlen), InitIndex_ok a index hasc hnn]
  have hl : index.length ≠ 0 := by rw [hlen]; simp
  have hres2 : Base.resolveEncoder infer
      { a with
          Bitmaps := builtBitmaps index
          Offsets := builtOffsets index
          Cnt := toInt32 index.length } e0 = Except.ok enc := hres
  simp only [hl, if_false, hres2]
  rw [InitElts_ok _ _ _ hfits]
  simp [builtBase]

theorem Init_unresolved {V : Type} (infer : V → Except GoError (Encoder V)) (a : Base V)
    (index : List Int) (e0 : V) (rest : List V) (err : GoError)
    (hlen : index.length = (e0 :: rest).length)
    (hasc : index.Pairwise (· < ·)) (hnn : ∀ x ∈ index, 0 ≤ x)
    (hres : a.resolveEncoder infer e0 = Except.error err) :
    Base.Init infer a index (e0 :: rest)
      = some ({ a with
                  Bitmaps := builtBitmaps index
                  Offsets := builtOffsets index
                  Cnt := toInt32 index.length }, some err) := by
  unfold Base.Init
  rw [if_neg (by simpa using hlen), InitIndex_ok a index hasc hnn]
  have hl : index.length ≠ 0 := by rw [hlen]; simp
  have hres2 : Base.resolveEncoder infer
      { a with
          Bitmaps := builtBitmaps index
          Offsets := builtOffsets index
          Cnt := toInt32 index.length } e0 = Except.error err := hres
  simp only [hl, if_false, hres2]

theorem Init_ok {V : Type} (infer : V → Except GoError (Encoder V)) (a : Base V)
    (index : List Int) (elts : List V) (enc : Encoder V)
    (hlen : index.length = elts.length) (hne : index ≠ [])
    (hasc : index.Pairwise (· < ·)) (hnn : ∀ x ∈ index, 0 ≤ x)
    (henc : a.EltEncoder = some enc)
    (hfits : 0 ≤ enc.GetEncodedSize * (elts.length : Int) ∧
      enc.GetEncodedSize * (elts.length : Int) ≤ maxAlloc ∧
      (((elts.map enc.Encode).flatten.length : Nat) : Int) ≤ maxAlloc) :
    Base.Init infer a index elts = some (builtBase a index elts enc, none) := by
  cases elts with
  | nil => simp at hlen; exact absurd hlen hne
  | cons e0 rest =>
    exact Init_resolved infer a index e0 rest enc hlen hasc hnn
      (resolveEncoder_some infer a enc henc e0) hfits

theorem toInt32_of_range (x : Int) (h0 : -2 ^ 31 ≤ x) (h1 : x < 2 ^ 31) : toInt32 x = x := by
  unfold toInt32
  omega

theorem toInt32_eq_wrap (x : Int) : toInt32 x = (x + 2 ^ 31) % 2 ^ 32 - 2 ^ 31 := by
  unfold toInt32
  omega

theorem builtBase_elts_length {V : Type} (a : Base V) (index : List Int) (elts : List V)
    (enc : Encoder V) (s : Nat) (hs : ∀ v ∈ elts, (enc.Encode v).length = s) :
    (builtBase a index elts enc).Elts.length = elts.length * s := by
  simp only [builtBase]
  exact flatten_length_uniform enc.Encode s elts hs

theorem toInt32_natCast (n : Nat) (h : n < 2 ^ 31) : toInt32 (n : Int) = (n : Int) := by
  apply toInt32_of_range <;> omega

theorem offsets_fit (s k n : Nat) (hk : k < n) (hfit : n * s < 2 ^ 31) :
    s < 2 ^ 31 ∧ s * k < 2 ^ 31 ∧ s * k + s < 2 ^ 31 ∧ s * k + s ≤ n * s := by
  have hmul : (k + 1) * s ≤ n * s := Nat.mul_le_mul_right s hk
  have hks : (k + 1) * s = s * k + s := by ring
  have h1 : s ≤ s * k + s := Nat.le_add_left _ _
  have h2 : s * k ≤ s * k + s := Nat.le_add_right _ _
  omega

theorem GetBytes_built {V : Type} (a : Base V) (index : List Int) (elts : List V)
    (enc : Encoder V) (s : Nat)
    (hasc : index.Pairwise (· < ·)) (hnn : ∀ x ∈ index, 0 ≤ x)
    (hlen : index.length = elts.length)
    (hs : ∀ v ∈ elts, (enc.Encode v).length = s)
    (hfit : index.length * s < 2 ^ 31)
    (k : Nat) (hk : k < index.length) (hk2 : k < elts.length) :
    (builtBase a index elts enc).GetBytes index[k] (s : Int)
      = some (some (enc.Encode elts[k])) := by
  have hr := Rank64_member index hasc hnn k hk
  have hL := builtBase_elts_length a index elts enc s hs
  have hb : (builtBase a index elts enc).Bitmaps = builtBitmaps index := rfl
  have ho : (builtBase a index elts enc).Offsets = builtOffsets index := rfl
  obtain ⟨f1, f2, f3, f4⟩ := offsets_fit s k index.length hk hfit
  have c2 : ((s : Int) * (k : Int)) = ((s * k : Nat) : Int) := by push_cast; rfl
  have c3 : (((s * k : Nat) : Int) + (s : Int)) = ((s * k + s : Nat) : Int) := by push_cast; rfl
  unfold Base.GetBytes
  simp only [hb, ho, hr]
  rw [toInt32_natCast s f1, c2, toInt32_natCast _ f2, c3, toInt32_natCast _ f3]
  have hcond : (0 : Int) ≤ ((s * k : Nat) : Int) ∧ ((s * k : Nat) : Int) ≤ ((s * k + s : Nat) : Int)
      ∧ ((s * k + s : Nat) : Int) ≤ ((builtBase a index elts enc).Elts.length : Int) := by
    rw [hL, ← hlen]
    refine ⟨Int.natCast_nonneg _, ?_, ?_⟩
    · exact_mod_cast Nat.le_add_right (s * k) s
    · exact_mod_cast f4
  rw [if_neg (by decide), if_pos hcond]
  have e4 : (((s * k : Nat) : Int)).toNat = s * k := Int.toNat_natCast _
  have e5 : (((s * k + s : Nat) : Int) - ((s * k : Nat) : Int)).toNat = s := by
    rw [← c3, add_sub_cancel_left]
    exact Int.toNat_natCast _
  rw [e4, e5]
  simp only [builtBase]
  rw [flatten_slice enc.Encode s elts hs k hk2]

theorem Get_of_GetBytes {V : Type} (a : Base V) (enc : Encoder V) (idx : Int)
    (henc : a.EltEncoder = some enc) :
    a.Get idx
      = (a.GetBytes idx enc.GetEncodedSize).map (Option.map (fun bs => (enc.Decode bs).2)) := by
  unfold Base.Get
  rw [henc]
  dsimp only
  cases a.GetBytes idx enc.GetEncodedSize with
  | none => rfl
  | some r => cases r <;> rfl

theorem encodedSize_eq {V : Type} (enc : Encoder V) (elts : List V)
    (hsize : ∀ v ∈ elts, ((enc.Encode v).length : Int) = enc.GetEncodedSize)
    (hne : elts ≠ []) :
    ∃ s : Nat, enc.GetEncodedSize = (s : Int) ∧ ∀ v ∈ elts, (enc.Encode v).length = s := by
  cases elts with
  | nil => exact absurd rfl hne
  | cons e0 rest =>
    refine ⟨(enc.Encode e0).length, (hsize e0 (List.mem_cons_self _ _)).symm, ?_⟩
    intro v hv
    have h1 := hsize v hv
    have h2 := hsize e0 (List.mem_cons_self _ _)
    exact_mod_cast h1.trans h2.symm

theorem firstIndices_length (n : Nat) : (firstIndices n).length = n := by
  simp [firstIndices]

theorem firstIndices_getElem (n k : Nat) (hk : k < (firstIndices n).length) :
    (firstIndices n)[k] = (k : Int) := by
  simp only [firstIndices, List.getElem_map, List.getElem_range]
  rfl

theorem firstIndices_pairwise (n : Nat) : (firstIndices n).Pairwise (· < ·) := by
  unfold firstIndices
  rw [List.pairwise_map]
  exact (List.pairwise_lt_range n).imp (fun h => Int.ofNat_lt.mpr h)

theorem firstIndices_nonneg (n : Nat) : ∀ x ∈ firstIndices n, 0 ≤ x := by
  intro x hx
  unfold firstIndices at hx
  rw [List.mem_map] at hx
  obtain ⟨i, _, rfl⟩ := hx
  exact Int.ofNat_nonneg i

theorem builtBase_EltEncoder {V : Type} (a : Base V) (index : List Int) (elts : List V)
    (enc : Encoder V) : (builtBase a index elts enc).EltEncoder = a.EltEncoder := rfl

theorem GetBytes_member {V : Type} (a : Base V) (index : List Int) (elts : List V)
    (enc : Encoder V) (eltsize : Int)
    (hasc : index.Pairwise (· < ·)) (hnn : ∀ x ∈ index, 0 ≤ x)
    (k : Nat) (hk : k < index.length)
    (hbad : ¬ (0 ≤ toInt32 (toInt32 eltsize * (k : Int))
      ∧ toInt32 (toInt32 eltsize * (k : Int))
          ≤ toInt32 (toInt32 (toInt32 eltsize * (k : Int)) + toInt32 eltsize))) :
    (builtBase a index elts enc).GetBytes index[k] eltsize = none := by
  have hr := Rank64_member index hasc hnn k hk
  have hb : (builtBase a index elts enc).Bitmaps = builtBitmaps index := rfl
  have ho : (builtBase a index elts enc).Offsets = builtOffsets index := rfl
  unfold Base.GetBytes
  simp only [hb, ho, hr]
  rw [if_neg (by decide), if_neg]
  intro h
  exact hbad ⟨h.1, h.2.1⟩

/-- C1 (amended): for a strictly ascending sequence `I` of non-negative
indices, an element sequence `E` of the same non-zero length and a codec bound
to the array (`EltEncoder`) whose `Encode` yields exactly `GetEncodedSize`
bytes and whose `Decode` inverts `Encode` on the elements, provided the buffer
is addressable with `int32` offsets (`len(I) * GetEncodedSize < 2^31`):
`Init(I, E)` returns nil and afterwards `Get(I[k])` returns `(E[k], true)` for
every `k`. -/
theorem Init_Get_occupied {V : Type} (NewTypeEncoderEndian : V → Except GoError (Encoder V))
    (a : Base V) (enc : Encoder V) (I : List Int) (E : List V)
    (hasc : I.Pairwise (· < ·)) (hnn : ∀ x ∈ I, 0 ≤ x)
    (hlen : I.length = E.length) (hne : I ≠ [])
    (henc : a.EltEncoder = some enc)
    (hsize : ∀ v ∈ E, ((enc.Encode v).length : Int) = enc.GetEncodedSize)
    (hdec : ∀ v ∈ E, (enc.Decode (enc.Encode v)).2 = v)
    (hfit : (I.length : Int) * enc.GetEncodedSize < 2 ^ 31) :
    ∃ a', Base.Init NewTypeEncoderEndian a I E = some (a', none) ∧
      ∀ (k : Nat) (hk : k < I.length) (hk2 : k < E.length),
        a'.Get I[k] = some (some E[k]) := by
  have hEne : E ≠ [] := by
    intro h
    rw [h] at hlen
    exact hne (List.length_eq_zero.mp hlen)
  obtain ⟨s, hs, hsl⟩ := encodedSize_eq enc E hsize hEne
  have hfitN : I.length * s < 2 ^ 31 := by
    rw [hs] at hfit
    exact_mod_cast hfit
  refine ⟨builtBase a I E enc,
    Init_ok NewTypeEncoderEndian a I E enc hlen hne hasc hnn henc
      (uniform_fits enc E s hs hsl (fits_of_int32 _ _ (hlen ▸ hfitN))), ?_⟩
  intro k hk hk2
  have henc2 : (builtBase a I E enc).EltEncoder = some enc :=
    (builtBase_EltEncoder a I E enc).trans henc
  rw [Get_of_GetBytes _ enc _ henc2, hs,
    GetBytes_built a I E enc s hasc hnn hlen hsl hfitN k hk hk2]
  simp only [Option.map_some']
  rw [hdec _ (List.getElem_mem _)]

/-- C1, witness: indices `[0, 5, 130]` and elements `[10, 20, 30]` as 4-byte
unsigned integers give `Get(5) = (20, true)` and `Get(130) = (30, true)`. -/
theorem Init_Get_occupied_witness :
    ∃ a', Base.Init inferNone { Base.zero Nat with EltEncoder := some U32 } [0, 5, 130] [10, 20, 30]
        = some (a', none) ∧
      a'.Get 5 = some (some 20) ∧ a'.Get 130 = some (some 30) := by
  obtain ⟨a', h1, h2⟩ := Init_Get_occupied inferNone
    { Base.zero Nat with EltEncoder := some U32 } U32 [0, 5, 130] [10, 20, 30]
    (by decide) (by decide) (by decide) (by decide) rfl (by simp [U32]) (by simp [U32])
    (by decide)
  exact ⟨a', h1, h2 1 (by decide) (by decide), h2 2 (by decide) (by decide)⟩

/-- C1, counterexample: `2^29 + 1` elements of 4 bytes at the indices
`0..2^29`, with the codec `U32` bound to the array.  `Init` returns nil, the
codec yields 4 bytes for the element and decodes it back, and `Get(2^29)` does
not return the element: the byte offset `4 * 2^29` wraps to `-2^31` in `int32`
and the slice expression panics. -/
theorem Init_Get_occupied_fails :
    (∀ v ∈ List.replicate 536870913 (0 : Nat),
        ((U32.Encode v).length : Int) = U32.GetEncodedSize ∧ (U32.Decode (U32.Encode v)).2 = v) ∧
    ∃ a', Base.Init inferNone { Base.zero Nat with EltEncoder := some U32 }
        (firstIndices 536870913) (List.replicate 536870913 0) = some (a', none) ∧
      a'.Get 536870912 = none := by
  constructor
  · intro v hv
    rw [List.eq_of_mem_replicate hv]
    decide
  · have hlen : (firstIndices 536870913).length = (List.replicate 536870913 (0 : Nat)).length := by
      rw [firstIndices_length, List.length_replicate]
    have hne : firstIndices 536870913 ≠ [] := by
      intro h
      have := firstIndices_length 536870913
      rw [h] at this
      exact absurd this (by decide)
    refine ⟨_, Init_ok inferNone _ _ _ U32 hlen hne (firstIndices_pairwise _)
      (firstIndices_nonneg _) rfl
      (uniform_fits U32 _ 4 rfl (fun v _ => rfl)
        (by rw [List.length_replicate]; norm_num)), ?_⟩
    have hk : 536870912 < (firstIndices 536870913).length := by
      rw [firstIndices_length]; decide
    have hg := GetBytes_member { Base.zero Nat with EltEncoder := some U32 }
      (firstIndices 536870913) (List.replicate 536870913 0) U32 U32.GetEncodedSize
      (firstIndices_pairwise _) (firstIndices_nonneg _) 536870912 hk (by decide)
    rw [firstIndices_getElem] at hg
    rw [Get_of_GetBytes _ U32 _ rfl]
    have e : ((536870912 : Nat) : Int) = 536870912 := rfl
    rw [e] at hg
    rw [hg]
    rfl

theorem Of_some_nonneg (index : List Int) (bm : List Nat) (h : bitmap.Of index = some bm) :
    ∀ x ∈ index, 0 ≤ x := by
  unfold bitmap.Of at h
  split at h
  · rename_i hall
    simpa using hall
  · cases h

/-- What a nil result of `InitIndex` says about the input and the receiver. -/
theorem InitIndex_nil_inv {V : Type} (a a' : Base V) (index : List Int)
    (h : a.InitIndex index = some (a', none)) :
    index.Pairwise (· < ·) ∧ (∀ x ∈ index, 0 ≤ x) ∧
      a' = { a with
               Bitmaps := builtBitmaps index
               Offsets := builtOffsets index
               Cnt := toInt32 index.length } := by
  have hscan : ascendingScan index = true := by
    by_contra hc
    have hf : ascendingScan index = false := by simpa using hc
    unfold Base.InitIndex at h
    rw [if_pos hf] at h
    cases h
  have hasc := (ascendingScan_iff index).mp hscan
  have hnn : ∀ x ∈ index, 0 ≤ x := by
    unfold Base.InitIndex at h
    rw [if_neg (by simp [hscan])] at h
    cases hof : bitmap.Of index with
    | none => rw [hof] at h; cases h
    | some bm => exact Of_some_nonneg index bm hof
  refine ⟨hasc, hnn, ?_⟩
  rw [InitIndex_ok a index hasc hnn] at h
  injection h with h
  injection h with h1 _
  exact h1.symm

/-- An error result of `InitIndex` is `ErrIndexNotAscending`, returned before
the receiver is touched. -/
theorem InitIndex_err_inv {V : Type} (a a' : Base V) (index : List Int) (err : GoError)
    (h : a.InitIndex index = some (a', some err)) :
    ascendingScan index = false ∧ err = GoError.ErrIndexNotAscending ∧ a' = a := by
  unfold Base.InitIndex at h
  by_cases hf : ascendingScan index = false
  · rw [if_pos hf] at h
    injection h with h
    injection h with h1 h2
    injection h2 with h2
    exact ⟨hf, h2.symm, h1.symm⟩
  · rw [if_neg hf] at h
    cases hof : bitmap.Of index with
    | none => rw [hof] at h; cases h
    | some bm =>
      rw [hof] at h
      injection h with h
      injection h with _ h2
      cases h2

/-- The adjacent pairs of the scan: it fails exactly when some pair has
`index[i] >= index[i+1]`. -/
theorem ascendingScan_false_iff (index : List Int) :
    ascendingScan index = false ↔
      ∃ (i : Nat) (h : i + 1 < index.length), index[i] ≥ index[i + 1] := by
  constructor
  · intro hf
    by_contra hc
    have hp : index.Pairwise (· < ·) := by
      rw [← List.chain'_iff_pairwise, List.chain'_iff_get]
      intro i hi
      have hi2 : i + 1 < index.length := by omega
      by_contra hlt
      exact hc ⟨i, hi2, by simpa using hlt⟩
    rw [(ascendingScan_iff index).mpr hp] at hf
    cases hf
  · rintro ⟨i, hi, hge⟩
    by_contra hc
    have ht : ascendingScan index = true := by simpa using hc
    have hp := (ascendingScan_iff index).mp ht
    rw [← List.chain'_iff_pairwise, List.chain'_iff_get] at hp
    have := hp i (by omega)
    simp only [List.get_eq_getElem] at this
    omega

theorem InitIndex_InitElts_ok {V : Type} (a : Base V) (index : List Int) (elts : List V)
    (enc : Encoder V) (hasc : index.Pairwise (· < ·)) (hnn : ∀ x ∈ index, 0 ≤ x)
    (hfits : 0 ≤ enc.GetEncodedSize * (elts.length : Int) ∧
      enc.GetEncodedSize * (elts.length : Int) ≤ maxAlloc ∧
      (((elts.map enc.Encode).flatten.length : Nat) : Int) ≤ maxAlloc) :
    ∃ a1, a.InitIndex index = some (a1, none) ∧
      a1.InitElts elts enc = some (builtBase a index elts enc, ((elts.length : Int), none)) := by
  refine ⟨_, InitIndex_ok a index hasc hnn, ?_⟩
  rw [InitElts_ok _ _ _ hfits]
  rfl

/-- C2 (amended): for a strictly ascending sequence `I` of non-negative
indices, a same-length element sequence `E` and an encoder `enc` whose `Encode`
yields exactly `stride = enc.GetEncodedSize` bytes, provided
`len(I) * stride < 2^31` (every byte offset fits `int32`): after `InitIndex(I)`
and `InitElts(E, enc)`, `GetBytes(I[k], stride)` returns
`(enc.Encode(E[k]), true)` for every `k`; and `Get` is `GetBytes` at the size
the bound codec reports, followed by `Decode`. -/
theorem InitElts_GetBytes_slot {V : Type} (a : Base V) (enc : Encoder V)
    (I : List Int) (E : List V) (stride : Nat)
    (hasc : I.Pairwise (· < ·)) (hnn : ∀ x ∈ I, 0 ≤ x) (hlen : I.length = E.length)
    (hstride : enc.GetEncodedSize = (stride : Int))
    (hsize : ∀ v ∈ E, (enc.Encode v).length = stride)
    (hfit : I.length * stride < 2 ^ 31) :
    ∃ a1 a2, a.InitIndex I = some (a1, none) ∧
      a1.InitElts E enc = some (a2, ((E.length : Int), none)) ∧
      (∀ (k : Nat) (hk : k < I.length) (hk2 : k < E.length),
        a2.GetBytes I[k] (stride : Int) = some (some (enc.Encode E[k]))) ∧
      (∀ (codec : Encoder V) (idx : Int), a2.EltEncoder = some codec →
        a2.Get idx = (a2.GetBytes idx codec.GetEncodedSize).map
          (Option.map (fun bs => (codec.Decode bs).2))) := by
  obtain ⟨a1, h1, h2⟩ := InitIndex_InitElts_ok a I E enc hasc hnn
    (uniform_fits enc E stride hstride hsize (fits_of_int32 _ _ (hlen ▸ hfit)))
  refine ⟨a1, builtBase a I E enc, h1, h2, ?_, ?_⟩
  · intro k hk hk2
    exact GetBytes_built a I E enc stride hasc hnn hlen hsize hfit k hk hk2
  · intro codec idx hc
    exact Get_of_GetBytes _ codec idx hc

/-- C2, witness: indices `[0, 5, 130]` and elements `[10, 20, 30]` with the
4-byte codec: the raw view at index 130 is the encoding of 30. -/
theorem InitElts_GetBytes_slot_witness :
    ∃ a1 a2, (Base.zero Nat).InitIndex [0, 5, 130] = some (a1, none) ∧
      a1.InitElts [10, 20, 30] U32 = some (a2, (3, none)) ∧
      a2.GetBytes 130 4 = some (some [30, 0, 0, 0]) := by
  obtain ⟨a1, a2, h1, h2, h3, _⟩ := InitElts_GetBytes_slot (Base.zero Nat) U32
    [0, 5, 130] [10, 20, 30] 4 (by decide) (by decide) (by decide) rfl
    (by simp [U32]) (by decide)
  exact ⟨a1, a2, h1, h2, h3 2 (by decide) (by decide)⟩

/-- C2, counterexample: one element whose encoding takes `2^31` bytes, at
index 0.  The encoder yields exactly `GetEncodedSize` bytes, `InitIndex` and
`InitElts` succeed, and `GetBytes(0, 2^31)` does not return the encoding:
`int32(eltsize)` is `-2^31`, the upper bound of the slice expression is
negative and the expression panics. -/
theorem InitElts_GetBytes_slot_fails :
    (∀ v : Unit, ((wideCodec.Encode v).length : Int) = wideCodec.GetEncodedSize) ∧
    ∃ a1 a2, (Base.zero Unit).InitIndex [0] = some (a1, none) ∧
      a1.InitElts [()] wideCodec = some (a2, (1, none)) ∧
      a2.GetBytes 0 wideCodec.GetEncodedSize = none := by
  constructor
  · intro v
    show ((List.replicate 2147483648 0).length : Int) = 2147483648
    rw [List.length_replicate]
    rfl
  · obtain ⟨a1, h1, h2⟩ := InitIndex_InitElts_ok (Base.zero Unit) [0] [()] wideCodec
      (by decide) (by decide)
      (uniform_fits wideCodec [()] 2147483648 rfl (fun _ _ => List.length_replicate _ _)
        (by norm_num))
    refine ⟨a1, _, h1, h2, ?_⟩
    exact GetBytes_member (Base.zero Unit) [0] [()] wideCodec wideCodec.GetEncodedSize
      (by decide) (by decide) 0 (by decide) (by decide)

/-- What a nil result of `Init` says about the input and the receiver: the
index tables are the built ones and `EltEncoder` is the one the receiver had. -/
theorem Init_nil_inv {V : Type} (infer : V → Except GoError (Encoder V)) (a a' : Base V)
    (index : List Int) (elts : List V) (h : Base.Init infer a index elts = some (a', none)) :
    index.length = elts.length ∧ index.Pairwise (· < ·) ∧ (∀ x ∈ index, 0 ≤ x) ∧
      a'.Bitmaps = builtBitmaps index ∧ a'.Offsets = builtOffsets index ∧
      a'.Cnt = toInt32 index.length ∧ a'.EltEncoder = a.EltEncoder ∧
      (index = [] → a'.Elts = a.Elts) ∧
      (index ≠ [] → ∃ e0 rest enc, elts = e0 :: rest ∧
        a.resolveEncoder infer e0 = Except.ok enc ∧ 0 ≤ InitElts.sz elts enc ∧
        InitElts.sz elts enc ≤ maxAlloc ∧
        (((elts.map enc.Encode).flatten.length : Nat) : Int) ≤ maxAlloc ∧
        a'.Elts = (elts.map enc.Encode).flatten) := by
  unfold Base.Init at h
  by_cases hlen : index.length = elts.length
  swap
  · rw [if_pos hlen] at h
    cases h
  rw [if_neg (by simpa using hlen)] at h
  cases hi : a.InitIndex index with
  | none => rw [hi] at h; cases h
  | some r =>
    obtain ⟨a1, e⟩ := r
    cases e with
    | some err => rw [hi] at h; cases h
    | none =>
      rw [hi] at h
      obtain ⟨hasc, hnn, ha1⟩ := InitIndex_nil_inv a a1 index hi
      by_cases h0 : index.length = 0
      · simp only [h0, if_true] at h
        injection h with h
        injection h with h1 _
        subst h1
        have hnil : index = [] := List.length_eq_zero.mp h0
        subst ha1
        exact ⟨hlen, hasc, hnn, rfl, rfl, rfl, rfl, fun _ => rfl, fun hne => absurd hnil hne⟩
      · simp only [h0, if_false] at h
        cases elts with
        | nil => cases h
        | cons e0 rest =>
          simp only at h
          have hres : a1.resolveEncoder infer e0 = a.resolveEncoder infer e0 := by
            subst ha1; rfl
          rw [hres] at h
          cases hr : a.resolveEncoder infer e0 with
          | error err => rw [hr] at h; cases h
          | ok enc =>
            rw [hr] at h
            simp only at h
            cases hie : a1.InitElts (e0 :: rest) enc with
            | none => rw [hie] at h; cases h
            | some r2 =>
              obtain ⟨i0, i1, i2, i3⟩ := InitElts_inv a1 (e0 :: rest) enc r2 hie
              rw [hie, i3] at h
              simp only at h
              injection h with h
              injection h with h1 _
              subst h1
              subst ha1
              refine ⟨hlen, hasc, hnn, rfl, rfl, rfl, rfl, ?_, ?_⟩
              · intro hnil; rw [hnil] at h0; exact absurd rfl h0
              · intro _
                exact ⟨e0, rest, enc, rfl, hr, i0, i1, i2, rfl⟩

theorem GetBytes_absent {V : Type} (a : Base V) (index : List Int)
    (hb : a.Bitmaps = builtBitmaps index) (ho : a.Offsets = builtOffsets index)
    (hnn : ∀ x ∈ index, 0 ≤ x) (x : Int) (hx0 : 0 ≤ x)
    (hx1 : x < 64 * (a.Bitmaps.length : Int)) (hx : x ∉ index) (eltsize : Int) :
    a.GetBytes x eltsize = some none := by
  have hw : x.toNat / 64 < bitmap.wordsFor (positions index) := by
    rw [hb, builtBitmaps_length] at hx1
    omega
  have hm : x.toNat ∉ positions index :=
    fun hm => hx ((mem_positions index hnn x hx0).mp hm)
  unfold Base.GetBytes
  simp only [hb, ho]
  rw [Rank64_built index x hx0 hw, if_pos (by simp [hm])]

/-- Lookup of an absent index on an array built by a successful `Init`, for an
index `x` with `0 <= x < 64 * len(Bitmaps)` that is not a member of `I`:
`GetBytes(x, stride)` returns `(nil, false)` for every `stride`, and so does
`Get(x)` on the path of `Init` that has a codec in `EltEncoder` (the codec was
supplied explicitly). -/
theorem Get_absent_in_range {V : Type} (NewTypeEncoderEndian : V → Except GoError (Encoder V))
    (a a' : Base V) (I : List Int) (E : List V)
    (hinit : Base.Init NewTypeEncoderEndian a I E = some (a', none))
    (x : Int) (hx0 : 0 ≤ x) (hx1 : x < 64 * (a'.Bitmaps.length : Int)) (hx : x ∉ I) :
    (∀ stride : Int, a'.GetBytes x stride = some none) ∧
      (∀ enc : Encoder V, a'.EltEncoder = some enc → a'.Get x = some none) := by
  obtain ⟨_, _, hnn, hb, ho, _⟩ := Init_nil_inv NewTypeEncoderEndian a a' I E hinit
  have hg : ∀ stride : Int, a'.GetBytes x stride = some none :=
    fun stride => GetBytes_absent a' I hb ho hnn x hx0 hx1 hx stride
  refine ⟨hg, ?_⟩
  intro enc henc
  rw [Get_of_GetBytes a' enc x henc, hg]
  rfl

/-- The explicit-codec path on `I = [0, 5, 130]`: with the codec `U32` in
`EltEncoder`, `Get(6) = (nil, false)` and `GetBytes(6, 4) = (nil, false)`. -/
theorem Get_absent_in_range_witness :
    ∃ a', Base.Init inferNone { Base.zero Nat with EltEncoder := some U32 }
        [0, 5, 130] [10, 20, 30] = some (a', none) ∧
      a'.Get 6 = some none ∧ a'.GetBytes 6 4 = some none := by
  have hinit := Init_ok inferNone { Base.zero Nat with EltEncoder := some U32 }
    [0, 5, 130] [10, 20, 30] U32 (by decide) (by decide) (by decide) (by decide) rfl
    (uniform_fits U32 _ 4 rfl (fun v _ => rfl) (by decide))
  have h := Get_absent_in_range inferNone _ _ [0, 5, 130] [10, 20, 30] hinit
    6 (by decide) (by decide) (by decide)
  exact ⟨_, hinit, h.2 U32 rfl, h.1 4⟩

/-- C3 (code defect): `Init` on a zero-valued `Base` (no explicit codec) with
`I = [0, 5, 130]` and three 4-byte elements returns nil and leaves `EltEncoder`
nil, because the inferred codec is never stored.  Index 6 is in range and not
a member of `I`; `GetBytes(6, 4)` returns `(nil, false)`, and `Get(6)` panics
on the nil `EltEncoder`, where the claim and the comment on `Get` say
`(nil, false)`.  On the same input with the codec supplied explicitly, `Init`
returns nil and `Get(6)` returns `(nil, false)`. -/
theorem Get_absent_in_range_fails :
    (∃ a', Base.Init inferU32 (Base.zero Nat) [0, 5, 130] [10, 20, 30] = some (a', none) ∧
      (6 : Int) ∉ [0, 5, 130] ∧ (0 : Int) ≤ 6 ∧ (6 : Int) < 64 * (a'.Bitmaps.length : Int) ∧
      a'.EltEncoder = none ∧ a'.GetBytes 6 4 = some none ∧ a'.Get 6 = none) ∧
    (∃ b', Base.Init inferNone { Base.zero Nat with EltEncoder := some U32 }
        [0, 5, 130] [10, 20, 30] = some (b', none) ∧ b'.Get 6 = some none) := by
  have hinit := Init_resolved inferU32 (Base.zero Nat) [0, 5, 130] 10 [20, 30] U32
    (by decide) (by decide) (by decide) rfl
    (uniform_fits U32 _ 4 rfl (fun v _ => rfl) (by decide))
  have hb := Init_ok inferNone { Base.zero Nat with EltEncoder := some U32 }
    [0, 5, 130] [10, 20, 30] U32 (by decide) (by decide) (by decide) (by decide) rfl
    (uniform_fits U32 _ 4 rfl (fun v _ => rfl) (by decide))
  have h6 : (6 : Int) < 64 * ((builtBitmaps [0, 5, 130]).length : Int) := by decide
  refine ⟨⟨_, hinit, by decide, by decide, h6, rfl, ?_, rfl⟩, ⟨_, hb, ?_⟩⟩
  · exact GetBytes_absent _ [0, 5, 130] rfl rfl (by decide) 6 (by decide) h6 (by decide) 4
  · rw [Get_of_GetBytes _ U32 6 rfl,
      GetBytes_absent _ [0, 5, 130] rfl rfl (by decide) 6 (by decide) h6 (by decide) _]
    rfl

/-- C4 (amended): `InitIndex(index)` returns `ErrIndexNotAscending` if and only
if there is an adjacent pair with `index[i] >= index[i+1]`; it returns no other
error, and with an error `Bitmaps`, `Offsets` and `Cnt` (the whole receiver)
are left unchanged.  For every other input whose indices are all non-negative,
the empty and the single-element sequence included, it returns nil. -/
theorem InitIndex_result {V : Type} (a : Base V) (index : List Int) :
    ((∃ a', a.InitIndex index = some (a', some GoError.ErrIndexNotAscending)) ↔
        ∃ (i : Nat) (h : i + 1 < index.length), index[i] ≥ index[i + 1]) ∧
      (∀ (a' : Base V) (err : GoError), a.InitIndex index = some (a', some err) →
        err = GoError.ErrIndexNotAscending ∧ a' = a) ∧
      ((¬ ∃ (i : Nat) (h : i + 1 < index.length), index[i] ≥ index[i + 1]) →
        (∀ x ∈ index, 0 ≤ x) → ∃ a', a.InitIndex index = some (a', none)) := by
  refine ⟨⟨?_, ?_⟩, ?_, ?_⟩
  · rintro ⟨a', h⟩
    exact (ascendingScan_false_iff index).mp (InitIndex_err_inv a a' index _ h).1
  · intro h
    have hf := (ascendingScan_false_iff index).mpr h
    refine ⟨a, ?_⟩
    unfold Base.InitIndex
    rw [if_pos hf]
  · intro a' err h
    exact (InitIndex_err_inv a a' index err h).2
  · intro hno hnn
    have ht : ascendingScan index = true := by
      by_contra hc
      exact hno ((ascendingScan_false_iff index).mp (by simpa using hc))
    exact ⟨_, InitIndex_ok a index ((ascendingScan_iff index).mp ht) hnn⟩

/-- C4, witness: `[3, 3]` has a duplicate and is rejected with the receiver
unchanged; the empty sequence and `[7]` are accepted. -/
theorem InitIndex_result_witness :
    (Base.zero Nat).InitIndex [3, 3]
        = some (Base.zero Nat, some GoError.ErrIndexNotAscending) ∧
      (∃ a', (Base.zero Nat).InitIndex [] = some (a', none)) ∧
      (∃ a', (Base.zero Nat).InitIndex [7] = some (a', none)) := by
  refine ⟨?_, ?_, ?_⟩
  · obtain ⟨a', h⟩ := (InitIndex_result (Base.zero Nat) [3, 3]).1.mpr ⟨0, by decide, by decide⟩
    have h2 := ((InitIndex_result (Base.zero Nat) [3, 3]).2.1 a' _ h).2
    rw [h2] at h
    exact h
  · exact (InitIndex_result (Base.zero Nat) []).2.2 (by simp) (by simp)
  · exact (InitIndex_result (Base.zero Nat) [7]).2.2 (by simp) (by simp)

/-- C4, counterexample: the single-element sequence `[-1]` has no adjacent
pair with `index[i] >= index[i+1]`, and `InitIndex` does not return nil on it:
`bitmap.Of` has no bit position for a negative index. -/
theorem InitIndex_result_fails :
    (¬ ∃ (i : Nat) (h : i + 1 < ([-1] : List Int).length),
        ([-1] : List Int)[i] ≥ ([-1] : List Int)[i + 1]) ∧
      (Base.zero Nat).InitIndex [-1] = none := by
  constructor
  · rintro ⟨i, hi, _⟩
    simp at hi
  · rfl

/-- C5: when the lengths of the index sequence and of the element slice
differ, `Init` returns `ErrIndexLen`, whether or not the index sequence is
ascending, and the receiver is the one before the call: `Bitmaps`, `Offsets`,
`Cnt` and `Elts` are unchanged. -/
theorem Init_length_mismatch {V : Type} (NewTypeEncoderEndian : V → Except GoError (Encoder V))
    (a : Base V) (indexes : List Int) (elts : List V)
    (hlen : indexes.length ≠ elts.length) :
    Base.Init NewTypeEncoderEndian a indexes elts = some (a, some GoError.ErrIndexLen) ∧
      ∀ a' err, Base.Init NewTypeEncoderEndian a indexes elts = some (a', err) →
        err = some GoError.ErrIndexLen ∧ a'.Bitmaps = a.Bitmaps ∧ a'.Offsets = a.Offsets ∧
          a'.Cnt = a.Cnt ∧ a'.Elts = a.Elts := by
  have h : Base.Init NewTypeEncoderEndian a indexes elts
      = some (a, some GoError.ErrIndexLen) := by
    unfold Base.Init
    rw [if_pos hlen]
  refine ⟨h, ?_⟩
  intro a' err h2
  rw [h] at h2
  injection h2 with h2
  injection h2 with h3 h4
  subst h3
  exact ⟨h4.symm, rfl, rfl, rfl, rfl⟩

/-- C5, witness: two indices that are not ascending and one element: the
length check comes first and the result is `ErrIndexLen`. -/
theorem Init_length_mismatch_witness :
    ascendingScan [3, 1] = false ∧
      Base.Init inferU32 (Base.zero Nat) [3, 1] [7]
        = some (Base.zero Nat, some GoError.ErrIndexLen) :=
  ⟨by decide, (Init_length_mismatch inferU32 (Base.zero Nat) [3, 1] [7] (by decide)).1⟩

theorem InitElts_no_error {V : Type} (a : Base V) (elts : List V) (encoder : Encoder V)
    (a2 : Base V) (n : Int) (e : Option GoError)
    (h : a.InitElts elts encoder = some (a2, (n, e))) : e = none := by
  obtain ⟨_, _, _, h3⟩ := InitElts_inv a elts encoder _ h
  injection h3 with _ h3
  injection h3

/-- C6 (amended): when `Init` returns an error, `Elts` and `EltEncoder` are the
same after the call as before; when the error is the length mismatch or the
non-ascending index, `Bitmaps`, `Offsets` and `Cnt` are unchanged too (the
whole receiver is). -/
theorem Init_error_frame {V : Type} (NewTypeEncoderEndian : V → Except GoError (Encoder V))
    (a a' : Base V) (indexes : List Int) (elts : List V) (err : GoError)
    (h : Base.Init NewTypeEncoderEndian a indexes elts = some (a', some err)) :
    a'.Elts = a.Elts ∧ a'.EltEncoder = a.EltEncoder ∧
      (indexes.length ≠ elts.length → err = GoError.ErrIndexLen ∧ a' = a) ∧
      (indexes.length = elts.length → ascendingScan indexes = false →
        err = GoError.ErrIndexNotAscending ∧ a' = a) := by
  unfold Base.Init at h
  by_cases hlen : indexes.length = elts.length
  swap
  · rw [if_pos hlen] at h
    injection h with h
    injection h with h1 h2
    injection h2 with h2
    subst h1
    exact ⟨rfl, rfl, fun _ => ⟨h2.symm, rfl⟩, fun hc => absurd hc hlen⟩
  rw [if_neg (by simpa using hlen)] at h
  cases hi : a.InitIndex indexes with
  | none => rw [hi] at h; cases h
  | some r =>
    obtain ⟨a1, e⟩ := r
    rw [hi] at h
    cases e with
    | some err1 =>
      obtain ⟨_, he, ha1⟩ := InitIndex_err_inv a a1 indexes err1 hi
      simp only at h
      injection h with h
      injection h with h1 h2
      injection h2 with h2
      subst h1 h2 ha1
      exact ⟨rfl, rfl, fun hc => absurd hlen hc, fun _ _ => ⟨he, rfl⟩⟩
    | none =>
      obtain ⟨hasc, _, ha1⟩ := InitIndex_nil_inv a a1 indexes hi
      have hscan : ascendingScan indexes = true := (ascendingScan_iff indexes).mpr hasc
      have hframe : a1.Elts = a.Elts ∧ a1.EltEncoder = a.EltEncoder := by
        subst ha1; exact ⟨rfl, rfl⟩
      by_cases h0 : indexes.length = 0
      · simp only [h0, if_true] at h
        injection h with h
        injection h with _ h2
        cases h2
      · simp only [h0, if_false] at h
        cases elts with
        | nil => cases h
        | cons e0 rest =>
          simp only at h
          cases hr : a1.resolveEncoder NewTypeEncoderEndian e0 with
          | error err2 =>
            rw [hr] at h
            simp only at h
            injection h with h
            injection h with h1 _
            subst h1
            refine ⟨hframe.1, hframe.2, fun hc => absurd hlen hc, ?_⟩
            intro _ hf
            rw [hscan] at hf
            cases hf
          | ok enc =>
            rw [hr] at h
            simp only at h
            cases hie : a1.InitElts (e0 :: rest) enc with
            | none => rw [hie] at h; cases h
            | some r2 =>
              obtain ⟨a2, n, e2⟩ := r2
              have he2 := InitElts_no_error a1 (e0 :: rest) enc a2 n e2 hie
              subst he2
              rw [hie] at h
              simp only at h
              injection h with h
              injection h with _ h2
              cases h2

/-- C6, witness: a non-ascending index of the right length, on a receiver that
already holds data, is rejected and leaves the receiver as it was. -/
theorem Init_error_frame_witness :
    ∃ a' err, Base.Init inferNone heldBase [2, 1] [7, 8] = some (a', some err) ∧
      err = GoError.ErrIndexNotAscending ∧
      a'.Bitmaps = [6] ∧ a'.Offsets = [0] ∧ a'.Cnt = 2 ∧ a'.Elts = [5, 0, 0, 0, 6, 0, 0, 0] := by
  have h0 : Base.Init inferNone heldBase [2, 1] [7, 8]
      = some (heldBase, some GoError.ErrIndexNotAscending) := by
    unfold Base.Init Base.InitIndex
    rw [if_neg (by decide), if_pos (by decide)]
  have h := Init_error_frame inferNone heldBase heldBase [2, 1] [7, 8]
    GoError.ErrIndexNotAscending h0
  have h2 := (h.2.2.2 (by decide) (by decide)).1
  exact ⟨heldBase, _, h0, h2, rfl, rfl, rfl, h.1⟩

/-- C6, counterexample: `Init` on a zero-valued `Base` with `I = [0, 5, 130]`,
three elements and a codec resolver that fails returns the resolver's error,
and `Bitmaps`, `Offsets` and `Cnt` are not the ones before the call: they hold
what `InitIndex` built. -/
theorem Init_error_frame_fails :
    ∃ a', Base.Init inferNone (Base.zero Nat) [0, 5, 130] [10, 20, 30]
        = some (a', some (GoError.other 0)) ∧
      a'.Bitmaps = [33, 0, 4] ∧ a'.Offsets = [0, 0, 2] ∧ a'.Cnt = 3 ∧
      (Base.zero Nat).Bitmaps = [] ∧ (Base.zero Nat).Offsets = [] ∧ (Base.zero Nat).Cnt = 0 := by
  refine ⟨_, Init_unresolved inferNone (Base.zero Nat) [0, 5, 130] 10 [20, 30] (GoError.other 0)
    (by decide) (by decide) (by decide) rfl, by decide, by decide, by decide, rfl, rfl, rfl⟩

theorem builtOffsets_length (index : List Int) :
    (builtOffsets index).length = (builtBitmaps index).length := by
  unfold builtOffsets
  rw [zeroEmptyWords_length]
  simp [bitmap.IndexRank64]

theorem builtOffsets_getElem (index : List Int) (w : Nat)
    (hw : w < (builtBitmaps index).length) (hw2 : w < (builtOffsets index).length) :
    (builtOffsets index)[w]
      = if (builtBitmaps index)[w] = 0 then 0
        else ((((builtBitmaps index).take w).map bitmap.OnesCount64).sum : Int) := by
  have h1 : (builtOffsets index)[w] = (builtOffsets index).getD w 0 :=
    (List.getD_eq_getElem _ _ hw2).symm
  have h2 : (builtBitmaps index).getD w 1 = (builtBitmaps index)[w] :=
    List.getD_eq_getElem _ _ hw
  rw [h1]
  unfold builtOffsets
  rw [zeroEmptyWords_getD, h2, IndexRank64_getD _ _ hw]
  simp only [hw, true_and]

/-- C7: after `InitIndex(index)` returns nil for a strictly ascending
non-negative index sequence, `Offsets` has one entry per bitmap word, and for
every word `w`: `Offsets[w] = 0` if `Bitmaps[w] = 0`, and otherwise `Offsets[w]`
is the number of set bits in the words `0..w-1`. -/
theorem InitIndex_Offsets {V : Type} (a : Base V) (index : List Int)
    (hasc : index.Pairwise (· < ·)) (hnn : ∀ x ∈ index, 0 ≤ x) :
    ∃ a', a.InitIndex index = some (a', none) ∧
      a'.Offsets.length = a'.Bitmaps.length ∧
      ∀ (w : Nat) (hw : w < a'.Bitmaps.length) (hw2 : w < a'.Offsets.length),
        a'.Offsets[w]
          = if a'.Bitmaps[w] = 0 then 0
            else (((a'.Bitmaps.take w).map bitmap.OnesCount64).sum : Int) := by
  refine ⟨_, InitIndex_ok a index hasc hnn, builtOffsets_length index, ?_⟩
  intro w hw hw2
  exact builtOffsets_getElem index w hw hw2

/-- C7, witness: for `[0, 1, 200]` the words are `3, 0, 0, 256` and the
rank table is `0, 0, 0, 2`: the two all-empty words hold 0, the last word the
two set bits before it. -/
theorem InitIndex_Offsets_witness :
    ∃ a', (Base.zero Nat).InitIndex [0, 1, 200] = some (a', none) ∧
      a'.Bitmaps = [3, 0, 0, 256] ∧ a'.Offsets = [0, 0, 0, 2] ∧
      a'.Offsets.length = a'.Bitmaps.length := by
  obtain ⟨a', h1, h2, _⟩ := InitIndex_Offsets (Base.zero Nat) [0, 1, 200] (by decide) (by decide)
  have h3 := (InitIndex_nil_inv (Base.zero Nat) a' [0, 1, 200] h1).2.2
  subst h3
  exact ⟨_, h1, by decide, by decide, h2⟩

theorem bitAt_built (index : List Int) (hnn : ∀ x ∈ index, 0 ≤ x) (i : Nat) :
    bitAt (builtBitmaps index) i = true ↔ (i : Int) ∈ index := by
  have hmem := mem_positions index hnn (i : Int) (Int.natCast_nonneg i)
  rw [Int.toNat_natCast] at hmem
  rw [← hmem]
  unfold bitAt
  have h3 : i % 64 < 64 := Nat.mod_lt _ (by decide)
  have h2 : 64 * (i / 64) + i % 64 = i := Nat.div_add_mod i 64
  by_cases hw : i / 64 < bitmap.wordsFor (positions index)
  · rw [builtBitmaps_getD index _ 0 hw, bitmap.testBit_wordOf, h2]
    simp [h3]
  · have hget : (builtBitmaps index).getD (i / 64) 0 = 0 := by
      rw [List.getD_eq_getElem?_getD, List.getElem?_eq_none]
      · rfl
      · rw [builtBitmaps_length]; omega
    rw [hget, Nat.zero_testBit]
    constructor
    · intro h; cases h
    · intro h; exact absurd (bitmap.lt_wordsFor _ _ h) hw

theorem built_total_ones (index : List Int) (hasc : index.Pairwise (· < ·))
    (hnn : ∀ x ∈ index, 0 ≤ x) :
    ((builtBitmaps index).map bitmap.OnesCount64).sum = index.length := by
  have h := bitmap.sum_ones_take (positions index) (bitmap.wordsFor (positions index))
    (bitmap.wordsFor (positions index)) (le_refl _)
  have hlen : ((List.range (bitmap.wordsFor (positions index))).map
      (bitmap.wordOf (positions index))).length = bitmap.wordsFor (positions index) := by simp
  rw [List.take_of_length_le (le_of_eq hlen)] at h
  unfold builtBitmaps
  rw [h, bitmap.countBelow_length _ (positions_pairwise index hasc hnn)]
  · simp [positions]
  · intro p hp
    have := bitmap.lt_wordsFor _ p hp
    omega

theorem ceil_words (m : Int) (hm : 0 ≤ m) :
    ((m.toNat / 64 + 1 : Nat) : Int) = ⌈((m : ℚ) + 1) / 64⌉ := by
  symm
  rw [Int.ceil_eq_iff]
  have e : ((m.toNat / 64 + 1 : Nat) : Int) = m / 64 + 1 := by omega
  rw [e]
  have hq : m = 64 * (m / 64) + m % 64 := (Int.ediv_add_emod m 64).symm
  have hr0 : 0 ≤ m % 64 := Int.emod_nonneg m (by decide)
  have hr1 : m % 64 < 64 := Int.emod_lt_of_pos m (by decide)
  have hqQ : (m : ℚ) = 64 * ((m / 64 : Int) : ℚ) + ((m % 64 : Int) : ℚ) := by exact_mod_cast hq
  have hr0Q : (0 : ℚ) ≤ ((m % 64 : Int) : ℚ) := by exact_mod_cast hr0
  have hr1Q : ((m % 64 : Int) : ℚ) ≤ 63 := by
    have : m % 64 ≤ 63 := by omega
    exact_mod_cast this
  push_cast
  constructor
  · rw [lt_div_iff₀ (by norm_num)]
    linarith
  · rw [div_le_iff₀ (by norm_num)]
    linarith

/-- C8 (amended): for a strictly ascending non-negative index sequence `I` with
max index `m`, `InitIndex(I)` returns nil and afterwards bit `i` of `Bitmaps` is set if
and only if `i` is a member of `I`, `len(Bitmaps) = ceil((m+1)/64)` (0 for
empty `I`), the total number of set bits in `Bitmaps` is `len(I)`, and `Cnt` is
`int32(len(I))`, which is `len(I)` when `len(I) < 2^31`. -/
theorem InitIndex_Bitmaps {V : Type} (a : Base V) (I : List Int)
    (hasc : I.Pairwise (· < ·)) (hnn : ∀ x ∈ I, 0 ≤ x) :
    ∃ a', a.InitIndex I = some (a', none) ∧
      (∀ i : Nat, bitAt a'.Bitmaps i = true ↔ (i : Int) ∈ I) ∧
      (I = [] → a'.Bitmaps.length = 0) ∧
      (∀ m ∈ I, (∀ x ∈ I, x ≤ m) → (a'.Bitmaps.length : Int) = ⌈((m : ℚ) + 1) / 64⌉) ∧
      (a'.Bitmaps.map bitmap.OnesCount64).sum = I.length ∧
      a'.Cnt = toInt32 I.length ∧
      (I.length < 2 ^ 31 → a'.Cnt = (I.length : Int)) := by
  refine ⟨_, InitIndex_ok a I hasc hnn, bitAt_built I hnn, ?_, ?_,
    built_total_ones I hasc hnn, rfl, ?_⟩
  · intro h
    subst h
    rfl
  · intro m hm hmax
    have hm0 : 0 ≤ m := hnn m hm
    have hmp : m.toNat ∈ positions I := (mem_positions I hnn m hm0).mpr hm
    have hmaxp : ∀ p ∈ positions I, p ≤ m.toNat := by
      intro p hp
      unfold positions at hp
      rw [List.mem_map] at hp
      obtain ⟨x, hx, rfl⟩ := hp
      have := hmax x hx
      omega
    show ((builtBitmaps I).length : Int) = _
    rw [builtBitmaps_length, bitmap.wordsFor_of_max _ _ hmp hmaxp]
    exact ceil_words m hm0
  · intro hl
    exact toInt32_natCast _ hl

/-- C8, witness: for `[0, 5, 130]` the bitmap has `ceil(131/64) = 3` words,
bits 5 and 130 are set, bit 6 is not, and `Cnt = 3`. -/
theorem InitIndex_Bitmaps_witness :
    ∃ a', (Base.zero Nat).InitIndex [0, 5, 130] = some (a', none) ∧
      bitAt a'.Bitmaps 5 = true ∧ bitAt a'.Bitmaps 130 = true ∧ bitAt a'.Bitmaps 6 = false ∧
      (a'.Bitmaps.length : Int) = ⌈(((130 : Int) : ℚ) + 1) / 64⌉ ∧ a'.Bitmaps.length = 3 ∧
      (a'.Bitmaps.map bitmap.OnesCount64).sum = 3 ∧ a'.Cnt = 3 := by
  obtain ⟨a', h1, h2, _, h4, h5, _, h7⟩ :=
    InitIndex_Bitmaps (Base.zero Nat) [0, 5, 130] (by decide) (by decide)
  have h6 : bitAt a'.Bitmaps 6 = false := by
    have := (h2 6).not
    simpa using this
  have hlen := h4 130 (by decide) (by decide)
  have h3 := (InitIndex_nil_inv (Base.zero Nat) a' [0, 5, 130] h1).2.2
  exact ⟨a', h1, (h2 5).mpr (by decide), (h2 130).mpr (by decide), h6, hlen,
    by subst h3; decide, h5, h7 (by decide)⟩

/-- C8, counterexample: the `2^31` indices `0, 1, ..., 2^31 - 1` are strictly
ascending, non-negative `int32` values; `InitIndex` returns nil on them and
`Cnt`, the `int32` conversion of the length, is `-2^31`, not `len(I) = 2^31`. -/
theorem InitIndex_Bitmaps_fails :
    (firstIndices 2147483648).Pairwise (· < ·) ∧
      (∀ x ∈ firstIndices 2147483648, 0 ≤ x ∧ x < 2147483648) ∧
      ((firstIndices 2147483648).length : Int) = 2147483648 ∧
      ∃ a', (Base.zero Nat).InitIndex (firstIndices 2147483648) = some (a', none) ∧
        a'.Cnt = -2147483648 := by
  refine ⟨firstIndices_pairwise _, ?_, ?_, _,
    InitIndex_ok (Base.zero Nat) _ (firstIndices_pairwise _) (firstIndices_nonneg _), ?_⟩
  · intro x hx
    refine ⟨firstIndices_nonneg _ x hx, ?_⟩
    unfold firstIndices at hx
    rw [List.mem_map] at hx
    obtain ⟨i, hi, rfl⟩ := hx
    have := List.mem_range.mp hi
    exact Int.ofNat_lt.mpr this
  · rw [firstIndices_length]
    rfl
  · show toInt32 ((firstIndices 2147483648).length : Int) = -2147483648
    rw [firstIndices_length]
    decide

/-- C9 (amended): for a successful `Init` on a non-empty input with a codec whose
`Encode` yields exactly `stride = GetEncodedSize` bytes, `len(Elts)` is
`len(I) * stride` with no slack bytes, which is the capacity `sz` the buffer
was allocated with; `Cnt` is `int32(len(I))`, so `len(Elts) = Cnt * stride`
whenever `len(I) < 2^31`. -/
theorem Init_buffer_size {V : Type} (NewTypeEncoderEndian : V → Except GoError (Encoder V))
    (a a' : Base V) (I : List Int) (E : List V) (enc : Encoder V) (stride : Nat)
    (hinit : Base.Init NewTypeEncoderEndian a I E = some (a', none)) (hne : I ≠ [])
    (hres : ∀ e0 ∈ E.head?, a.resolveEncoder NewTypeEncoderEndian e0 = Except.ok enc)
    (hstride : enc.GetEncodedSize = (stride : Int))
    (hsize : ∀ v ∈ E, (enc.Encode v).length = stride) :
    a'.Elts.length = I.length * stride ∧
      InitElts.sz E enc = ((I.length * stride : Nat) : Int) ∧
      a'.Cnt = toInt32 I.length ∧
      (I.length < 2 ^ 31 → (a'.Elts.length : Int) = a'.Cnt * (stride : Int)) := by
  obtain ⟨hlen, _, _, _, _, hcnt, _, _, hel⟩ := Init_nil_inv NewTypeEncoderEndian a a' I E hinit
  obtain ⟨e0, rest, enc2, hE, hr2, _, _, htot, helts⟩ := hel hne
  have hr1 := hres e0 (by rw [hE]; rfl)
  have henc : enc2 = enc := by
    rw [hr2] at hr1
    injection hr1
  subst henc
  have hflat := flatten_length_uniform enc2.Encode stride E hsize
  have h1 : a'.Elts.length = I.length * stride := by
    rw [helts, hflat, hlen]
  refine ⟨h1, ?_, hcnt, ?_⟩
  · rw [hflat] at htot
    have e : enc2.GetEncodedSize * (E.length : Int) = ((E.length * stride : Nat) : Int) := by
      rw [hstride]; push_cast; ring
    rw [sz_of_fits E enc2 (by rw [e]; exact Int.natCast_nonneg _) (by rw [e]; exact htot), e,
      hlen]
  · intro hl
    rw [h1, hcnt, toInt32_natCast _ hl]
    push_cast
    ring

/-- C9, witness: three 4-byte elements give a buffer of exactly 12 bytes,
which is the allocated capacity and `Cnt * stride`. -/
theorem Init_buffer_size_witness :
    ∃ a', Base.Init inferNone { Base.zero Nat with EltEncoder := some U32 }
        [0, 5, 130] [10, 20, 30] = some (a', none) ∧
      a'.Elts.length = 12 ∧ InitElts.sz [10, 20, 30] U32 = 12 ∧ a'.Cnt = 3 ∧
      (a'.Elts.length : Int) = a'.Cnt * 4 := by
  have hinit := Init_ok inferNone { Base.zero Nat with EltEncoder := some U32 }
    [0, 5, 130] [10, 20, 30] U32 (by decide) (by decide) (by decide) (by decide) rfl
    (uniform_fits U32 _ 4 rfl (fun v _ => rfl) (by decide))
  have h := Init_buffer_size inferNone _ _ [0, 5, 130] [10, 20, 30] U32 4 hinit
    (by decide) (by intro e0 he0; rfl) rfl (by simp [U32])
  exact ⟨_, hinit, h.1, h.2.1, h.2.2.1.trans (by decide), h.2.2.2 (by decide)⟩

/-- C9, counterexample: `2^31` four-byte elements at the indices
`0, ..., 2^31 - 1`, with the codec `U32` bound.  `Init` returns nil, the buffer
holds `2^33` bytes, and `Cnt * stride` is `-2^33`. -/
theorem Init_buffer_size_fails :
    (∀ v ∈ List.replicate 2147483648 (0 : Nat),
        ((U32.Encode v).length : Int) = U32.GetEncodedSize) ∧
      ∃ a', Base.Init inferNone { Base.zero Nat with EltEncoder := some U32 }
          (firstIndices 2147483648) (List.replicate 2147483648 0) = some (a', none) ∧
        (a'.Elts.length : Int) = 8589934592 ∧ a'.Cnt * U32.GetEncodedSize = -8589934592 := by
  constructor
  · intro v _
    rfl
  · have hlen : (firstIndices 2147483648).length
        = (List.replicate 2147483648 (0 : Nat)).length := by
      rw [firstIndices_length, List.length_replicate]
    have hne : firstIndices 2147483648 ≠ [] := by
      intro h
      have := firstIndices_length 2147483648
      rw [h] at this
      exact absurd this (by decide)
    refine ⟨_, Init_ok inferNone _ _ _ U32 hlen hne (firstIndices_pairwise _)
      (firstIndices_nonneg _) rfl
      (uniform_fits U32 _ 4 rfl (fun v _ => rfl)
        (by rw [List.length_replicate]; norm_num)), ?_, ?_⟩
    · rw [builtBase_elts_length _ _ _ U32 4 (fun v _ => rfl), List.length_replicate]
      rfl
    · show toInt32 ((firstIndices 2147483648).length : Int) * U32.GetEncodedSize = -8589934592
      rw [firstIndices_length]
      decide

/-- C10: for a strictly ascending non-negative index sequence `I` and every
`k`, after `InitIndex(I)` the rank lookup that `GetBytes` uses,
`Offsets[I[k] >> 6] + popcount(bits of word I[k] >> 6 below bit I[k] & 63)`,
equals `k`, the word `I[k] >> 6` lies inside `Bitmaps` and `Offsets`, and the
presence bit is 1. -/
theorem InitIndex_rank_dense {V : Type} (a : Base V) (I : List Int)
    (hasc : I.Pairwise (· < ·)) (hnn : ∀ x ∈ I, 0 ≤ x) :
    ∃ a', a.InitIndex I = some (a', none) ∧
      ∀ (k : Nat) (hk : k < I.length),
        (I[k] / 64).toNat < a'.Bitmaps.length ∧ (I[k] / 64).toNat < a'.Offsets.length ∧
        a'.Offsets.getD (I[k] / 64).toNat 0
            + (bitmap.onesBelow (a'.Bitmaps.getD (I[k] / 64).toNat 0) (I[k] % 64).toNat : Int)
          = (k : Int) ∧
        bitAt a'.Bitmaps I[k].toNat = true ∧
        bitmap.Rank64 a'.Bitmaps a'.Offsets I[k] = ((k : Int), 1) := by
  refine ⟨_, InitIndex_ok a I hasc hnn, ?_⟩
  intro k hk
  have hr := Rank64_member I hasc hnn k hk
  have hx : 0 ≤ I[k] := hnn _ (List.getElem_mem _)
  have hbit : bitAt (builtBitmaps I) I[k].toNat = true := by
    rw [bitAt_built I hnn, Int.toNat_of_nonneg hx]
    exact List.getElem_mem _
  have hmem : I[k].toNat ∈ positions I := (mem_positions I hnn _ hx).mpr (List.getElem_mem _)
  have hw := bitmap.lt_wordsFor _ _ hmem
  have hlt : I[k] / 64 < ((builtBitmaps I).length : Int) := by
    rw [builtBitmaps_length]; omega
  have hin : (I[k] / 64).toNat < (builtBitmaps I).length := by omega
  refine ⟨hin, by rw [builtOffsets_length]; exact hin, ?_, hbit, hr⟩
  unfold bitmap.Rank64 at hr
  rw [if_pos ⟨hx, hlt⟩] at hr
  exact (Prod.mk.inj hr).1

/-- C10, witness: `I = {0, 1, 200}` resolves index 200 to slot 2, across two
all-empty words, and `I = [0, 5, 130]` resolves index 130 to rank 2. -/
theorem InitIndex_rank_dense_witness :
    (∃ a', (Base.zero Nat).InitIndex [0, 1, 200] = some (a', none) ∧
      bitmap.Rank64 a'.Bitmaps a'.Offsets 200 = (2, 1) ∧
      a'.Offsets.getD 3 0 + (bitmap.onesBelow (a'.Bitmaps.getD 3 0) 8 : Int) = 2) ∧
    (∃ a', (Base.zero Nat).InitIndex [0, 5, 130] = some (a', none) ∧
      bitmap.Rank64 a'.Bitmaps a'.Offsets 130 = (2, 1)) := by
  obtain ⟨a', h1, h2⟩ := InitIndex_rank_dense (Base.zero Nat) [0, 1, 200] (by decide) (by decide)
  obtain ⟨b', g1, g2⟩ := InitIndex_rank_dense (Base.zero Nat) [0, 5, 130] (by decide) (by decide)
  exact ⟨⟨a', h1, (h2 2 (by decide)).2.2.2.2, (h2 2 (by decide)).2.2.1⟩,
    ⟨b', g1, (g2 2 (by decide)).2.2.2.2⟩⟩


/-- C20: `bmBit` decomposes an index into its bitmap word index and the bit
index within the word: for every `idx >= 0`, `bmBit(idx) = (c, r)` with
`c = idx div 64` and `r = idx mod 64`, hence `idx = 64 * c + r` and
`0 <= r < 64`. -/
theorem bmBit_decompose (idx : Int) (h : 0 ≤ idx) :
    bmBit idx = (idx / 64, idx % 64) ∧
      idx = 64 * (bmBit idx).1 + (bmBit idx).2 ∧
      0 ≤ (bmBit idx).2 ∧ (bmBit idx).2 < 64 := by
  have hb : bmBit idx = (idx / 64, idx % 64) := by
    obtain ⟨n, rfl⟩ := Int.eq_ofNat_of_zero_le h
    unfold bmBit bmShift bmMask
    rw [Int.shiftRight_eq_div_pow]
    have h1 : Int.land (n : Int) 63 = ((n &&& 63 : Nat) : Int) := rfl
    have h2 : n &&& 63 = n % 64 := Nat.and_pow_two_sub_one_eq_mod n 6
    rw [h1, h2]
    norm_num
  rw [hb]
  refine ⟨rfl, ?_, ?_, ?_⟩
  · show idx = 64 * (idx / 64) + idx % 64
    omega
  · show 0 ≤ idx % 64
    omega
  · show idx % 64 < 64
    omega

/-- C20, witness: index 130 lies in word 2 at bit 2, index 200 in word 3 at
bit 8. -/
theorem bmBit_decompose_witness :
    bmBit 130 = (2, 2) ∧ bmBit 200 = (3, 8) ∧ (130 : Int) = 64 * (bmBit 130).1 + (bmBit 130).2 :=
  ⟨(bmBit_decompose 130 (by decide)).1, (bmBit_decompose 200 (by decide)).1,
    (bmBit_decompose 130 (by decide)).2.1⟩

/-- C13: for a zero-valued `Base`, with or without an explicit codec, `Init`
on an empty index sequence and an empty element slice returns nil whatever the
codec resolver would answer (it is not asked), and leaves `Cnt = 0`, an empty
bitmap and rank table, and an empty buffer. -/
theorem Init_empty {V : Type} (NewTypeEncoderEndian : V → Except GoError (Encoder V))
    (codec : Option (Encoder V)) :
    ∃ a', Base.Init NewTypeEncoderEndian { Base.zero V with EltEncoder := codec } [] []
        = some (a', none) ∧
      a'.Cnt = 0 ∧ a'.Bitmaps = [] ∧ a'.Offsets = [] ∧ a'.Elts.length = 0 ∧
      a'.EltEncoder = codec ∧
      ∀ other : V → Except GoError (Encoder V),
        Base.Init other { Base.zero V with EltEncoder := codec } [] [] = some (a', none) := by
  refine ⟨{ Base.zero V with EltEncoder := codec }, ?_, rfl, rfl, rfl, rfl, rfl, ?_⟩
  · rfl
  · intro other
    rfl

theorem GetBytes_exec_run {V : Type} (a : Base V) (idx eltsize : Int) :
    runOn (Base.GetBytes.exec idx eltsize) a = (a.GetBytes idx eltsize, a) := by
  unfold runOn Base.GetBytes.exec Base.GetBytes
  by_cases h : (bitmap.Rank64 a.Bitmaps a.Offsets idx).2 = 0
  · simp [h, OptionT.run, StateT.run, bind, OptionT.bind, StateT.bind, get, getThe,
      MonadStateOf.get, liftM, monadLift, MonadLift.monadLift, OptionT.lift, StateT.get, pure,
      OptionT.pure, StateT.pure, OptionT.mk]
  · by_cases h2 : 0 ≤ toInt32 (toInt32 eltsize * (bitmap.Rank64 a.Bitmaps a.Offsets idx).1) ∧
        toInt32 (toInt32 eltsize * (bitmap.Rank64 a.Bitmaps a.Offsets idx).1)
          ≤ toInt32 (toInt32 (toInt32 eltsize * (bitmap.Rank64 a.Bitmaps a.Offsets idx).1)
              + toInt32 eltsize) ∧
        toInt32 (toInt32 (toInt32 eltsize * (bitmap.Rank64 a.Bitmaps a.Offsets idx).1)
              + toInt32 eltsize) ≤ a.Elts.length
    · simp [h, h2, OptionT.run, StateT.run, bind, OptionT.bind, StateT.bind, get, getThe,
        MonadStateOf.get, liftM, monadLift, MonadLift.monadLift, OptionT.lift, StateT.get, pure,
        OptionT.pure, StateT.pure, OptionT.mk]
    · simp [h, h2, OptionT.run, StateT.run, bind, OptionT.bind, StateT.bind, get, getThe,
        MonadStateOf.get, liftM, monadLift, MonadLift.monadLift, OptionT.lift, StateT.get, pure,
        OptionT.pure, StateT.pure, OptionT.mk, failure, OptionT.fail]

theorem Get_exec_run {V : Type} (a : Base V) (idx : Int) :
    runOn (Base.Get.exec idx) a = (a.Get idx, a) := by
  have hg : ∀ eltsize, (Base.GetBytes.exec idx eltsize).run.run a
      = (a.GetBytes idx eltsize, a) := fun eltsize => GetBytes_exec_run a idx eltsize
  unfold runOn Base.Get.exec Base.Get
  cases henc : a.EltEncoder with
  | none =>
    simp [henc, OptionT.run, StateT.run, bind, OptionT.bind, StateT.bind, get, getThe,
      MonadStateOf.get, liftM, monadLift, MonadLift.monadLift, OptionT.lift, StateT.get, pure,
      OptionT.pure, StateT.pure, OptionT.mk, failure, OptionT.fail]
  | some enc =>
    have hg := hg enc.GetEncodedSize
    simp only [OptionT.run, StateT.run] at hg
    cases hr : a.GetBytes idx enc.GetEncodedSize with
    | none =>
      rw [hr] at hg
      simp [henc, hg, hr, OptionT.run, StateT.run, bind, OptionT.bind, StateT.bind, get, getThe,
        MonadStateOf.get, liftM, monadLift, MonadLift.monadLift, OptionT.lift, StateT.get, pure,
        OptionT.pure, StateT.pure, OptionT.mk, failure, OptionT.fail]
    | some r =>
      rw [hr] at hg
      cases r with
      | none =>
        simp [henc, hg, hr, OptionT.run, StateT.run, bind, OptionT.bind, StateT.bind, get,
          getThe, MonadStateOf.get, liftM, monadLift, MonadLift.monadLift, OptionT.lift,
          StateT.get, pure, OptionT.pure, StateT.pure, OptionT.mk, failure, OptionT.fail]
      | some bs =>
        simp [henc, hg, hr, OptionT.run, StateT.run, bind, OptionT.bind, StateT.bind, get,
          getThe, MonadStateOf.get, liftM, monadLift, MonadLift.monadLift, OptionT.lift,
          StateT.get, pure, OptionT.pure, StateT.pure, OptionT.mk, failure, OptionT.fail]

/-- C16: reads never mutate state and are idempotent.  Run statement by
statement on any receiver, `GetBytes(idx, eltsize)` and `Get(idx)` end with the
receiver they started with, so that `Bitmaps`, `Offsets`, `Cnt`, `Elts` and
`EltEncoder` are unchanged, also when the call panics; their results are the
values of `Base.GetBytes` and `Base.Get`; and a repeated call with the same
arguments, run on the receiver that the first call (of either read) left,
returns the identical result. -/
theorem reads_do_not_mutate {V : Type} (a : Base V) (idx : Int) (eltsize : Int) :
    ((runOn (Base.GetBytes.exec idx eltsize) a).2 = a ∧
        (runOn (Base.GetBytes.exec idx eltsize) a).1 = a.GetBytes idx eltsize ∧
        runOn (Base.GetBytes.exec idx eltsize) (runOn (Base.GetBytes.exec idx eltsize) a).2
          = runOn (Base.GetBytes.exec idx eltsize) a) ∧
      ((runOn (Base.Get.exec idx) a).2 = a ∧
        (runOn (Base.Get.exec idx) a).1 = a.Get idx ∧
        runOn (Base.Get.exec idx) (runOn (Base.Get.exec idx) a).2
          = runOn (Base.Get.exec idx) a) ∧
      runOn (Base.GetBytes.exec idx eltsize) (runOn (Base.Get.exec idx) a).2
        = runOn (Base.GetBytes.exec idx eltsize) a ∧
      runOn (Base.Get.exec idx) (runOn (Base.GetBytes.exec idx eltsize) a).2
        = runOn (Base.Get.exec idx) a := by
  have hb := GetBytes_exec_run a idx eltsize
  have hg := Get_exec_run a idx
  refine ⟨⟨?_, ?_, ?_⟩, ⟨?_, ?_, ?_⟩, ?_, ?_⟩
  · rw [hb]
  · rw [hb]
  · rw [hb]; exact hb
  · rw [hg]
  · rw [hg]
  · rw [hg]; exact hg
  · rw [hg]
  · rw [hb]

/-- C17 (amended): for every element slice `elts` of length `n` and every
encoder `enc`: whenever `InitElts(elts, enc)` returns, it has set `Elts` to the
concatenation `enc.Encode(elts[0]) ++ ... ++ enc.Encode(elts[n-1])` in input
order, nothing between the encodings, it has returned `(n, nil)`, and
`Bitmaps`, `Offsets`, `Cnt` and `EltEncoder` are unchanged; and it does return
when the capacity `eltsize * n` is not negative and the capacity and the number
of encoded bytes are below `2^31` (a buffer that `int32` offsets can
address). -/
theorem InitElts_concat {V : Type} (a : Base V) (elts : List V) (enc : Encoder V) :
    (∀ r, a.InitElts elts enc = some r →
        r = ({ a with Elts := (elts.map enc.Encode).flatten }, ((elts.length : Int), none))) ∧
      (0 ≤ enc.GetEncodedSize * (elts.length : Int) →
        enc.GetEncodedSize * (elts.length : Int) < 2 ^ 31 →
        (((elts.map enc.Encode).flatten.length : Nat) : Int) < 2 ^ 31 →
        ∃ a', a.InitElts elts enc = some (a', ((elts.length : Int), none)) ∧
          a'.Elts = (elts.map enc.Encode).flatten ∧
          a'.Bitmaps = a.Bitmaps ∧ a'.Offsets = a.Offsets ∧ a'.Cnt = a.Cnt ∧
          a'.EltEncoder = a.EltEncoder) := by
  constructor
  · intro r h
    exact (InitElts_inv a elts enc r h).2.2.2
  · intro h0 h1 h2
    refine ⟨{ a with Elts := (elts.map enc.Encode).flatten }, ?_, rfl, rfl, rfl, rfl, rfl⟩
    apply InitElts_ok
    unfold maxAlloc
    exact ⟨h0, by omega, by omega⟩

/-- C17, witness: three elements with the 4-byte codec give the twelve bytes
of their encodings in input order, also when the elements are not sorted. -/
theorem InitElts_concat_witness :
    ∃ a', heldBase.InitElts [30, 10, 20] U32 = some (a', (3, none)) ∧
      a'.Elts = [30, 0, 0, 0, 10, 0, 0, 0, 20, 0, 0, 0] ∧
      a'.Bitmaps = [6] ∧ a'.Offsets = [0] ∧ a'.Cnt = 2 := by
  obtain ⟨a', h1, h2, h3, h4, h5, _⟩ :=
    (InitElts_concat heldBase [30, 10, 20] U32).2 (by decide) (by decide) (by decide)
  exact ⟨a', h1, h2.trans (by decide), h3, h4, h5⟩

/-- C17, counterexample: with an encoder that reports the encoded size `-1`
and one element, `sz` is `-1`, `make([]byte, 0, sz)` panics and `InitElts`
does not return `(n, nil)`; with an encoder that reports `2^62` and two
elements, the product wraps to `-2^63` and `make` panics as well. -/
theorem InitElts_concat_fails :
    (InitElts.sz [7] negCodec = -1 ∧ (Base.zero Nat).InitElts [7] negCodec = none) ∧
      (InitElts.sz [7, 7] hugeCodec = -9223372036854775808 ∧
        (Base.zero Nat).InitElts [7, 7] hugeCodec = none) := by
  refine ⟨⟨by decide, ?_⟩, ⟨by decide, ?_⟩⟩
  · unfold Base.InitElts
    rw [if_pos (Or.inl (by decide))]
  · unfold Base.InitElts
    rw [if_pos (Or.inl (by decide))]

theorem Rank64_bit_of_offsets (bm : List Nat) (offs offs2 : List Int) (i : Int) :
    (bitmap.Rank64 bm offs i).2 = (bitmap.Rank64 bm offs2 i).2 := by
  unfold bitmap.Rank64
  split <;> rfl

/-- The rank lookup does not see the zeroing of the entries of all-empty
words: where the bit is set, the word is not zero. -/
theorem Rank64_zeroEmptyWords (bm : List Nat) (offs : List Int) (i : Int)
    (hbit : (bitmap.Rank64 bm offs i).2 ≠ 0) :
    bitmap.Rank64 bm (zeroEmptyWords bm offs) i = bitmap.Rank64 bm offs i := by
  unfold bitmap.Rank64 at hbit ⊢
  by_cases h : 0 ≤ i ∧ i / 64 < (bm.length : Int)
  · rw [if_pos h] at hbit
    rw [if_pos h, if_pos h]
    simp only at hbit ⊢
    have hw : bm.getD (i / 64).toNat 0 ≠ 0 := by
      intro hz
      rw [hz] at hbit
      simp at hbit
    have hlt : (i / 64).toNat < bm.length := by omega
    have hw1 : bm.getD (i / 64).toNat 1 ≠ 0 := by
      rw [List.getD_eq_getElem _ _ hlt]
      rw [List.getD_eq_getElem _ _ hlt] at hw
      exact hw
    rw [zeroEmptyWords_getD, if_neg (fun hc => hw1 hc.2)]
  · rw [if_neg h] at hbit
    exact absurd rfl hbit

/-- `GetBytes` does not depend on the entries of `Offsets` at all-empty
words. -/
theorem GetBytes_zeroEmptyWords {V : Type} (a b : Base V) (hb : b.Bitmaps = a.Bitmaps)
    (he : b.Elts = a.Elts) (ho : b.Offsets = zeroEmptyWords a.Bitmaps a.Offsets)
    (idx eltsize : Int) :
    b.GetBytes idx eltsize = a.GetBytes idx eltsize := by
  unfold Base.GetBytes
  simp only [hb, he, ho]
  by_cases hbit : (bitmap.Rank64 a.Bitmaps a.Offsets idx).2 = 0
  · have h2 : (bitmap.Rank64 a.Bitmaps (zeroEmptyWords a.Bitmaps a.Offsets) idx).2 = 0 := by
      rw [Rank64_bit_of_offsets a.Bitmaps _ a.Offsets]; exact hbit
    rw [if_pos hbit, if_pos h2]
  · rw [Rank64_zeroEmptyWords a.Bitmaps a.Offsets idx hbit]

theorem Get_zeroEmptyWords {V : Type} (a b : Base V) (hb : b.Bitmaps = a.Bitmaps)
    (he : b.Elts = a.Elts) (ho : b.Offsets = zeroEmptyWords a.Bitmaps a.Offsets)
    (henc : b.EltEncoder = a.EltEncoder) (idx : Int) :
    b.Get idx = a.Get idx := by
  unfold Base.Get
  rw [henc]
  cases a.EltEncoder with
  | none => rfl
  | some enc =>
    simp only
    rw [GetBytes_zeroEmptyWords a b hb he ho idx enc.GetEncodedSize]


theorem InitIndexUnmodified_ok {V : Type} (a b : Base V) (I : List Int)
    (hinit : a.InitIndex I = some (b, none)) :
    a.InitIndexUnmodified I
      = some ({ b with Offsets := bitmap.IndexRank64 b.Bitmaps }, none) := by
  obtain ⟨hasc, hnn, hb⟩ := InitIndex_nil_inv a b I hinit
  have hscan : ascendingScan I = true := (ascendingScan_iff I).mpr hasc
  unfold Base.InitIndexUnmodified
  rw [hscan, Of_nonneg I hnn, hb]
  simp

theorem InitIndex_offsets_eq {V : Type} (a b : Base V) (I : List Int)
    (hinit : a.InitIndex I = some (b, none)) :
    b.Offsets = zeroEmptyWords b.Bitmaps (bitmap.IndexRank64 b.Bitmaps) := by
  obtain ⟨_, _, hb⟩ := InitIndex_nil_inv a b I hinit
  rw [hb]
  rfl

/-- C11 (amended): for every index sequence on which `InitIndex` returns nil,
also one with an all-empty word gap, building the rank table without the
override (`Offsets = bitmap.IndexRank64(Bitmaps)` unmodified) gives the same
bitmap, leaves the entry of every non-zero word as it is, and does not change
the result of `GetBytes` or `Get` for any index, occupied or not, whatever
buffer and codec the array holds. -/
theorem override_keeps_lookups {V : Type} (a b : Base V) (I : List Int)
    (hinit : a.InitIndex I = some (b, none)) :
    ∃ b', a.InitIndexUnmodified I = some (b', none) ∧
      b'.Bitmaps = b.Bitmaps ∧ b'.Offsets = bitmap.IndexRank64 b.Bitmaps ∧
      (∀ w : Nat, w < b.Bitmaps.length → b.Bitmaps.getD w 0 ≠ 0 →
        b.Offsets.getD w 0 = b'.Offsets.getD w 0) ∧
      ∀ (elts : List Nat) (codec : Option (Encoder V)) (idx eltsize : Int),
        ({ b with Elts := elts, EltEncoder := codec } : Base V).GetBytes idx eltsize
            = ({ b' with Elts := elts, EltEncoder := codec } : Base V).GetBytes idx eltsize ∧
          ({ b with Elts := elts, EltEncoder := codec } : Base V).Get idx
            = ({ b' with Elts := elts, EltEncoder := codec } : Base V).Get idx := by
  have ho := InitIndex_offsets_eq a b I hinit
  refine ⟨_, InitIndexUnmodified_ok a b I hinit, rfl, rfl, ?_, ?_⟩
  · intro w hw hne
    show b.Offsets.getD w 0 = (bitmap.IndexRank64 b.Bitmaps).getD w 0
    rw [ho, zeroEmptyWords_getD, if_neg]
    intro hc
    apply hne
    have h1 := hc.2
    rw [List.getD_eq_getElem _ _ hw] at h1 ⊢
    exact h1
  · intro elts codec idx eltsize
    constructor
    · exact GetBytes_zeroEmptyWords
        ({ b with Offsets := bitmap.IndexRank64 b.Bitmaps, Elts := elts, EltEncoder := codec }
          : Base V)
        ({ b with Elts := elts, EltEncoder := codec } : Base V) rfl rfl ho idx eltsize
    · exact Get_zeroEmptyWords
        ({ b with Offsets := bitmap.IndexRank64 b.Bitmaps, Elts := elts, EltEncoder := codec }
          : Base V)
        ({ b with Elts := elts, EltEncoder := codec } : Base V) rfl rfl ho rfl idx

/-- C11, witness: for `I = {0, 1, 200}` the rank table is `0, 0, 0, 2` with the
override and `0, 2, 2, 2` without it, and index 200, the occupied index after
the two all-empty words, resolves to the same bytes either way. -/
theorem override_keeps_lookups_witness :
    ∃ b b', (Base.zero Nat).InitIndex [0, 1, 200] = some (b, none) ∧
      (Base.zero Nat).InitIndexUnmodified [0, 1, 200] = some (b', none) ∧
      b.Offsets = [0, 0, 0, 2] ∧ b'.Offsets = [0, 2, 2, 2] ∧
      ({ b with Elts := [10, 0, 0, 0, 20, 0, 0, 0, 30, 0, 0, 0], EltEncoder := some U32 }
          : Base Nat).GetBytes 200 4
        = ({ b' with Elts := [10, 0, 0, 0, 20, 0, 0, 0, 30, 0, 0, 0], EltEncoder := some U32 }
          : Base Nat).GetBytes 200 4 ∧
      ({ b' with Elts := [10, 0, 0, 0, 20, 0, 0, 0, 30, 0, 0, 0], EltEncoder := some U32 }
          : Base Nat).Get 200 = some (some 30) := by
  have hinit := InitIndex_ok (Base.zero Nat) [0, 1, 200] (by decide) (by decide)
  obtain ⟨b', h1, _, h3, _, h5⟩ := override_keeps_lookups (Base.zero Nat) _ [0, 1, 200] hinit
  refine ⟨_, b', hinit, h1, by decide, ?_, (h5 _ (some U32) 200 4).1, ?_⟩
  · rw [h3]; decide
  · rw [← (h5 _ (some U32) 200 4).2]; decide

/-- C11, counterexample: there is no index sequence on which `InitIndex`
returns nil and an index, occupied or not, for which the result of `GetBytes`
or of `Get` differs between the rank table with the override and the rank
table `bitmap.IndexRank64(Bitmaps)` without it. -/
theorem override_changes_lookup_fails :
    ¬ ∃ (V : Type) (a b b' : Base V) (I : List Int) (elts : List Nat)
        (codec : Option (Encoder V)) (idx eltsize : Int),
        a.InitIndex I = some (b, none) ∧ a.InitIndexUnmodified I = some (b', none) ∧
        (({ b with Elts := elts, EltEncoder := codec } : Base V).GetBytes idx eltsize
            ≠ ({ b' with Elts := elts, EltEncoder := codec } : Base V).GetBytes idx eltsize ∨
          ({ b with Elts := elts, EltEncoder := codec } : Base V).Get idx
            ≠ ({ b' with Elts := elts, EltEncoder := codec } : Base V).Get idx) := by
  rintro ⟨V, a, b, b', I, elts, codec, idx, eltsize, hinit, hraw, hne⟩
  have ho := InitIndex_offsets_eq a b I hinit
  have hb' := InitIndexUnmodified_ok a b I hinit
  rw [hraw] at hb'
  injection hb' with hb'
  injection hb' with hb' _
  subst hb'
  rcases hne with h | h
  · exact h (GetBytes_zeroEmptyWords
      ({ b with Offsets := bitmap.IndexRank64 b.Bitmaps, Elts := elts, EltEncoder := codec }
        : Base V)
      ({ b with Elts := elts, EltEncoder := codec } : Base V) rfl rfl ho idx eltsize)
  · exact h (Get_zeroEmptyWords
      ({ b with Offsets := bitmap.IndexRank64 b.Bitmaps, Elts := elts, EltEncoder := codec }
        : Base V)
      ({ b with Elts := elts, EltEncoder := codec } : Base V) rfl rfl ho rfl idx)


theorem Rank64_out_of_range (words : List Nat) (rindex : List Int) (idx : Int)
    (hout : idx < 0 ∨ 64 * (words.length : Int) ≤ idx) :
    bitmap.Rank64 words rindex idx = (0, 0) := by
  unfold bitmap.Rank64
  rw [if_neg]
  intro h
  omega

theorem GetBytes_out_of_range {V : Type} (a : Base V) (idx eltsize : Int)
    (hout : idx < 0 ∨ 64 * (a.Bitmaps.length : Int) ≤ idx) :
    a.GetBytes idx eltsize = some none := by
  unfold Base.GetBytes
  simp only
  rw [Rank64_out_of_range _ _ _ hout, if_pos rfl]

/-- Lookup of an index outside the bitmap on an array built by a successful
`Init`, for `idx < 0` or `idx >= 64 * len(Bitmaps)`: `GetBytes(idx, stride)`
returns `(nil, false)` without a panic, and so does `Get(idx)` when
`EltEncoder` holds a codec; on the array built from empty input the bitmap is
empty, so this holds for every index. -/
theorem Get_out_of_range {V : Type} (NewTypeEncoderEndian : V → Except GoError (Encoder V))
    (a a' : Base V) (I : List Int) (E : List V)
    (hinit : Base.Init NewTypeEncoderEndian a I E = some (a', none))
    (idx : Int) (hout : idx < 0 ∨ 64 * (a'.Bitmaps.length : Int) ≤ idx) :
    (∀ stride : Int, a'.GetBytes idx stride = some none) ∧
      (∀ enc : Encoder V, a'.EltEncoder = some enc → a'.Get idx = some none) ∧
      (I = [] → ∀ j : Int, (∀ stride : Int, a'.GetBytes j stride = some none) ∧
        ∀ enc : Encoder V, a'.EltEncoder = some enc → a'.Get j = some none) := by
  have hg : ∀ (j : Int), (j < 0 ∨ 64 * (a'.Bitmaps.length : Int) ≤ j) →
      (∀ stride : Int, a'.GetBytes j stride = some none) ∧
        ∀ enc : Encoder V, a'.EltEncoder = some enc → a'.Get j = some none := by
    intro j hj
    refine ⟨fun stride => GetBytes_out_of_range a' j stride hj, ?_⟩
    intro enc henc
    rw [Get_of_GetBytes a' enc j henc, GetBytes_out_of_range a' j _ hj]
    rfl
  refine ⟨(hg idx hout).1, (hg idx hout).2, ?_⟩
  intro hI j
  obtain ⟨_, _, _, hb, _⟩ := Init_nil_inv NewTypeEncoderEndian a a' I E hinit
  have hlen : a'.Bitmaps.length = 0 := by
    rw [hb, hI]
    rfl
  apply hg j
  rw [hlen]
  omega

/-- The explicit-codec path: with the codec `U32` in `EltEncoder`, the array
of `I = [0, 5, 130]` has three words; `Get(192)`, `Get(-1)` and
`GetBytes(1000, 4)` return `(nil, false)`, and so does `Get(0)` on the array
built from empty input. -/
theorem Get_out_of_range_witness :
    (∃ a', Base.Init inferNone { Base.zero Nat with EltEncoder := some U32 }
        [0, 5, 130] [10, 20, 30] = some (a', none) ∧
      a'.Get 192 = some none ∧ a'.Get (-1) = some none ∧ a'.GetBytes 1000 4 = some none) ∧
    (∃ a', Base.Init inferNone { Base.zero Nat with EltEncoder := some U32 } [] []
        = some (a', none) ∧ a'.Get 0 = some none) := by
  have hinit := Init_ok inferNone { Base.zero Nat with EltEncoder := some U32 }
    [0, 5, 130] [10, 20, 30] U32 (by decide) (by decide) (by decide) (by decide) rfl
    (uniform_fits U32 _ 4 rfl (fun v _ => rfl) (by decide))
  have h192 := Get_out_of_range inferNone _ _ [0, 5, 130] [10, 20, 30] hinit 192
    (Or.inr (by decide))
  have hneg := Get_out_of_range inferNone _ _ [0, 5, 130] [10, 20, 30] hinit (-1)
    (Or.inl (by decide))
  have h1000 := Get_out_of_range inferNone _ _ [0, 5, 130] [10, 20, 30] hinit 1000
    (Or.inr (by decide))
  have hempty : Base.Init inferNone { Base.zero Nat with EltEncoder := some U32 } [] []
      = some ({ Base.zero Nat with EltEncoder := some U32 }, none) := rfl
  have h0 := Get_out_of_range inferNone _ _ [] [] hempty 0 (Or.inr (by decide))
  exact ⟨⟨_, hinit, h192.2.1 U32 rfl, hneg.2.1 U32 rfl, h1000.1 4⟩,
    ⟨_, hempty, (h0.2.2 rfl 0).2 U32 rfl⟩⟩

/-- C12 (code defect): `Init` on a zero-valued `Base` (no explicit codec) with
empty input returns nil and leaves `EltEncoder` nil, since no codec is stored.
`GetBytes(0, 4)` returns `(nil, false)`, and `Get(0)` and `Get(-1)` panic on
the nil `EltEncoder`, where the claim and the comment on `Get` say
`(nil, false)`; so does `Get(192)` on the array that `Init` builds from
`I = [0, 5, 130]` with an inferred codec.  With the codec supplied explicitly,
`Get(0)` on the array built from empty input returns `(nil, false)`. -/
theorem Get_out_of_range_fails :
    (∃ a', Base.Init inferU32 (Base.zero Nat) [] [] = some (a', none) ∧
      a'.Bitmaps.length = 0 ∧ a'.EltEncoder = none ∧ a'.GetBytes 0 4 = some none ∧
      a'.Get 0 = none ∧ a'.Get (-1) = none) ∧
    (∃ a', Base.Init inferU32 (Base.zero Nat) [0, 5, 130] [10, 20, 30] = some (a', none) ∧
      64 * (a'.Bitmaps.length : Int) ≤ 192 ∧ a'.Get 192 = none) ∧
    (∃ b', Base.Init inferNone { Base.zero Nat with EltEncoder := some U32 } [] []
        = some (b', none) ∧ b'.Get 0 = some none) := by
  refine ⟨⟨Base.zero Nat, rfl, rfl, rfl, rfl, rfl, rfl⟩,
    ⟨_, Init_resolved inferU32 (Base.zero Nat) [0, 5, 130] 10 [20, 30] U32
      (by decide) (by decide) (by decide) rfl
      (uniform_fits U32 _ 4 rfl (fun v _ => rfl) (by decide)), by decide, rfl⟩,
    ⟨{ Base.zero Nat with EltEncoder := some U32 }, rfl, rfl⟩⟩

/-- What `Init` does with an inferred codec, on a receiver whose `EltEncoder`
is nil: the codec produces `Elts` and is dropped when `Init` returns, so
`EltEncoder` is still nil and every `Get` panics.  The data is in place: with a
codec of exact size whose `Decode` inverts `Encode`, and
`len(I) * GetEncodedSize < 2^31`, `GetBytes(I[k], GetEncodedSize)` returns the
encoding of `E[k]`, and on the receiver with the codec in `EltEncoder`,
`Get(I[k])` returns `(E[k], true)` for every `k`. -/
theorem Init_inferred_codec {V : Type} (NewTypeEncoderEndian : V → Except GoError (Encoder V))
    (a : Base V) (enc : Encoder V) (I : List Int) (e0 : V) (rest : List V)
    (hasc : I.Pairwise (· < ·)) (hnn : ∀ x ∈ I, 0 ≤ x)
    (hlen : I.length = (e0 :: rest).length)
    (hnil : a.EltEncoder = none)
    (hinfer : NewTypeEncoderEndian e0 = Except.ok enc)
    (hsize : ∀ v ∈ e0 :: rest, ((enc.Encode v).length : Int) = enc.GetEncodedSize)
    (hdec : ∀ v ∈ e0 :: rest, (enc.Decode (enc.Encode v)).2 = v)
    (hfit : (I.length : Int) * enc.GetEncodedSize < 2 ^ 31) :
    ∃ a', Base.Init NewTypeEncoderEndian a I (e0 :: rest) = some (a', none) ∧
      a'.Elts = ((e0 :: rest).map enc.Encode).flatten ∧
      a'.EltEncoder = none ∧
      (∀ idx : Int, a'.Get idx = none) ∧
      ∀ (k : Nat) (hk : k < I.length) (hk2 : k < (e0 :: rest).length),
        a'.GetBytes I[k] enc.GetEncodedSize = some (some (enc.Encode (e0 :: rest)[k])) ∧
        ({ a' with EltEncoder := some enc } : Base V).Get I[k] = some (some (e0 :: rest)[k]) := by
  obtain ⟨s, hs, hsl⟩ := encodedSize_eq enc (e0 :: rest) hsize (by simp)
  have hfitN : I.length * s < 2 ^ 31 := by
    rw [hs] at hfit
    exact_mod_cast hfit
  have hres : a.resolveEncoder NewTypeEncoderEndian e0 = Except.ok enc := by
    unfold Base.resolveEncoder
    rw [hnil]
    exact hinfer
  have hinit := Init_resolved NewTypeEncoderEndian a I e0 rest enc hlen hasc hnn hres
    (uniform_fits enc (e0 :: rest) s hs hsl (fits_of_int32 _ _ (hlen ▸ hfitN)))
  have hE : (builtBase a I (e0 :: rest) enc).EltEncoder = none :=
    (builtBase_EltEncoder a I (e0 :: rest) enc).trans hnil
  refine ⟨_, hinit, rfl, hE, ?_, ?_⟩
  · intro idx
    unfold Base.Get
    rw [hE]
  · intro k hk hk2
    have hg := GetBytes_built a I (e0 :: rest) enc s hasc hnn hlen hsl hfitN k hk hk2
    constructor
    · rw [hs]; exact hg
    · have hg2 : ({ builtBase a I (e0 :: rest) enc with EltEncoder := some enc } : Base V).GetBytes
          I[k] (s : Int) = some (some (enc.Encode (e0 :: rest)[k])) := hg
      rw [Get_of_GetBytes _ enc _ rfl, hs, hg2]
      simp only [Option.map_some']
      rw [hdec _ (List.getElem_mem _)]

/-- Three 4-byte elements at `[0, 5, 130]` on a zero-valued `Base` with a
resolver that yields `U32`: `GetBytes(130, 4)` is the encoding of 30, and with
`U32` in `EltEncoder`, `Get(130)` is `(30, true)`. -/
theorem Init_inferred_codec_witness :
    ∃ a', Base.Init inferU32 (Base.zero Nat) [0, 5, 130] [10, 20, 30] = some (a', none) ∧
      a'.EltEncoder = none ∧ a'.Elts = [10, 0, 0, 0, 20, 0, 0, 0, 30, 0, 0, 0] ∧
      a'.GetBytes 130 4 = some (some [30, 0, 0, 0]) ∧
      ({ a' with EltEncoder := some U32 } : Base Nat).Get 130 = some (some 30) := by
  obtain ⟨a', h1, h2, h3, _, h5⟩ := Init_inferred_codec inferU32 (Base.zero Nat) U32
    [0, 5, 130] 10 [20, 30] (by decide) (by decide) (by decide) rfl rfl
    (by simp [U32]) (by simp [U32]) (by decide)
  exact ⟨a', h1, h3, h2.trans (by decide), (h5 2 (by decide) (by decide)).1,
    (h5 2 (by decide) (by decide)).2⟩

/-- C14 (code defect): after `Init` returns nil on three 4-byte elements at
`[0, 5, 130]` with no explicit codec and a resolver that yields `U32`, the
buffer holds the encodings (`GetBytes(5, 4)` is the encoding of 20), and
`EltEncoder` is nil: the inferred codec is not bound to the array, and `Get(5)`
and `Get(130)` panic, where the claim and the comment on `Get` say
`(20, true)` and `(30, true)`.  On the same input with the codec supplied
explicitly, `Init` returns nil and `Get(5)` returns `(20, true)`. -/
theorem Init_inferred_codec_fails :
    (∃ a', Base.Init inferU32 (Base.zero Nat) [0, 5, 130] [10, 20, 30] = some (a', none) ∧
      a'.Elts = [10, 0, 0, 0, 20, 0, 0, 0, 30, 0, 0, 0] ∧
      a'.GetBytes 5 4 = some (some [20, 0, 0, 0]) ∧
      a'.EltEncoder = none ∧ a'.Get 5 = none ∧ a'.Get 130 = none) ∧
    (∃ b', Base.Init inferNone { Base.zero Nat with EltEncoder := some U32 }
        [0, 5, 130] [10, 20, 30] = some (b', none) ∧
      b'.EltEncoder = some U32 ∧ b'.Get 5 = some (some 20)) := by
  have hfits := uniform_fits U32 [10, 20, 30] 4 rfl (fun v _ => rfl) (by decide)
  have hg := GetBytes_built (Base.zero Nat) [0, 5, 130] [10, 20, 30] U32 4
    (by decide) (by decide) (by decide) (fun v _ => rfl) (by decide) 1 (by decide) (by decide)
  have hg2 := GetBytes_built { Base.zero Nat with EltEncoder := some U32 }
    [0, 5, 130] [10, 20, 30] U32 4
    (by decide) (by decide) (by decide) (fun v _ => rfl) (by decide) 1 (by decide) (by decide)
  refine ⟨⟨_, Init_resolved inferU32 (Base.zero Nat) [0, 5, 130] 10 [20, 30] U32
      (by decide) (by decide) (by decide) rfl hfits, by decide, hg.trans (by decide),
      rfl, rfl, rfl⟩,
    ⟨_, Init_ok inferNone { Base.zero Nat with EltEncoder := some U32 }
      [0, 5, 130] [10, 20, 30] U32 (by decide) (by decide) (by decide) (by decide) rfl hfits,
      rfl, ?_⟩⟩
  rw [Get_of_GetBytes _ U32 5 rfl]
  have e : U32.GetEncodedSize = ((4 : Nat) : Int) := rfl
  rw [e]
  have hg3 : (builtBase { Base.zero Nat with EltEncoder := some U32 } [0, 5, 130]
      [10, 20, 30] U32).GetBytes 5 ((4 : Nat) : Int) = some (some [20, 0, 0, 0]) :=
    hg2.trans (by decide)
  rw [hg3]
  decide

/-- An index whose bit is set in the built bitmap is one of the indices, and
the rank lookup gives its position. -/
theorem present_inv (I : List Int) (hasc : I.Pairwise (· < ·)) (hnn : ∀ x ∈ I, 0 ≤ x)
    (idx : Int) (h0 : 0 ≤ idx) (h1 : idx < 64 * ((builtBitmaps I).length : Int))
    (hbit : (bitmap.Rank64 (builtBitmaps I) (builtOffsets I) idx).2 ≠ 0) :
    ∃ (k : Nat) (hk : k < I.length), I[k] = idx ∧
      bitmap.Rank64 (builtBitmaps I) (builtOffsets I) idx = ((k : Int), 1) := by
  have hw : idx.toNat / 64 < bitmap.wordsFor (positions I) := by
    rw [builtBitmaps_length] at h1
    omega
  rw [Rank64_built I idx h0 hw] at hbit
  have hm : idx.toNat ∈ positions I := by
    by_contra hc
    simp [hc] at hbit
  have hmem : idx ∈ I := (mem_positions I hnn idx h0).mp hm
  obtain ⟨k, hk, hik⟩ := List.getElem_of_mem hmem
  refine ⟨k, hk, hik, ?_⟩
  rw [← hik]
  exact Rank64_member I hasc hnn k hk

theorem present_in_range (words : List Nat) (rindex : List Int) (idx : Int)
    (hbit : (bitmap.Rank64 words rindex idx).2 ≠ 0) :
    0 ≤ idx ∧ idx < 64 * (words.length : Int) := by
  by_contra hc
  apply hbit
  rw [Rank64_out_of_range words rindex idx (by omega)]

/-- `GetBytes` at an occupied index of an array with built tables and a buffer
of `len(I) * s` bytes addressable with `int32` offsets: the view is the slot. -/
theorem GetBytes_slice {V : Type} (a : Base V) (I : List Int) (s : Nat)
    (hasc : I.Pairwise (· < ·)) (hnn : ∀ x ∈ I, 0 ≤ x)
    (hb : a.Bitmaps = builtBitmaps I) (ho : a.Offsets = builtOffsets I)
    (hL : a.Elts.length = I.length * s) (hfit : I.length * s < 2 ^ 31)
    (k : Nat) (hk : k < I.length) :
    a.stIdx I[k] (s : Int) = ((s * k : Nat) : Int) ∧
      a.GetBytes I[k] (s : Int) = some (some ((a.Elts.drop (s * k)).take s)) := by
  have hr := Rank64_member I hasc hnn k hk
  obtain ⟨f1, f2, f3, f4⟩ := offsets_fit s k I.length hk hfit
  have c2 : ((s : Int) * (k : Int)) = ((s * k : Nat) : Int) := by push_cast; rfl
  have c3 : (((s * k : Nat) : Int) + (s : Int)) = ((s * k + s : Nat) : Int) := by push_cast; rfl
  constructor
  · unfold Base.stIdx
    rw [hb, ho, hr]
    simp only
    rw [toInt32_natCast s f1, c2, toInt32_natCast _ f2]
  · unfold Base.GetBytes
    simp only [hb, ho, hr]
    rw [toInt32_natCast s f1, c2, toInt32_natCast _ f2, c3, toInt32_natCast _ f3]
    have hcond : (0 : Int) ≤ ((s * k : Nat) : Int) ∧
        ((s * k : Nat) : Int) ≤ ((s * k + s : Nat) : Int) ∧
        ((s * k + s : Nat) : Int) ≤ (a.Elts.length : Int) := by
      rw [hL]
      refine ⟨Int.natCast_nonneg _, ?_, ?_⟩
      · exact_mod_cast Nat.le_add_right (s * k) s
      · exact_mod_cast f4
    rw [if_neg (by decide), if_pos hcond]
    have e4 : (((s * k : Nat) : Int)).toNat = s * k := Int.toNat_natCast _
    have e5 : (((s * k + s : Nat) : Int) - ((s * k : Nat) : Int)).toNat = s := by
      rw [← c3, add_sub_cancel_left]
      exact Int.toNat_natCast _
    rw [e4, e5]


theorem Rank64_builtBase {V : Type} (a : Base V) (I : List Int) (elts : List V)
    (enc : Encoder V) (hasc : I.Pairwise (· < ·)) (hnn : ∀ x ∈ I, 0 ≤ x)
    (k : Nat) (hk : k < I.length) :
    bitmap.Rank64 (builtBase a I elts enc).Bitmaps (builtBase a I elts enc).Offsets I[k]
      = ((k : Int), 1) :=
  Rank64_member I hasc hnn k hk

theorem stIdx_builtBase {V : Type} (a : Base V) (I : List Int) (elts : List V)
    (enc : Encoder V) (eltsize : Int) (hasc : I.Pairwise (· < ·)) (hnn : ∀ x ∈ I, 0 ≤ x)
    (k : Nat) (hk : k < I.length) :
    (builtBase a I elts enc).stIdx I[k] eltsize = toInt32 (toInt32 eltsize * (k : Int)) := by
  unfold Base.stIdx
  rw [Rank64_builtBase a I elts enc hasc hnn k hk]

/-- C18 (amended): for every array built by a successful `Init` with
`len(I) * stride < 2^31`, and every present index `idx`, the byte offset that
`GetBytes` computes (`int32(eltsize) * r` in 32-bit arithmetic) equals
`rank * stride` as mathematical integers, with `0 <= rank < len(I)`; and when
the buffer holds `len(I) * stride` bytes the returned view is exactly
`buffer[rank*stride : rank*stride + stride]`. -/
theorem GetBytes_offset {V : Type} (NewTypeEncoderEndian : V → Except GoError (Encoder V))
    (a a' : Base V) (I : List Int) (E : List V) (stride : Nat)
    (hinit : Base.Init NewTypeEncoderEndian a I E = some (a', none))
    (hfit : I.length * stride < 2 ^ 31)
    (idx : Int) (hpresent : (bitmap.Rank64 a'.Bitmaps a'.Offsets idx).2 ≠ 0) :
    ∃ rank : Nat, (bitmap.Rank64 a'.Bitmaps a'.Offsets idx).1 = (rank : Int) ∧
      rank < I.length ∧
      a'.stIdx idx (stride : Int) = (rank : Int) * (stride : Int) ∧
      (a'.Elts.length = I.length * stride →
        a'.GetBytes idx (stride : Int)
          = some (some ((a'.Elts.drop (rank * stride)).take stride))) := by
  obtain ⟨_, hasc, hnn, hb, ho, _⟩ := Init_nil_inv NewTypeEncoderEndian a a' I E hinit
  obtain ⟨h0, h1⟩ := present_in_range _ _ idx hpresent
  rw [hb, ho] at hpresent
  rw [hb] at h1
  obtain ⟨k, hk, hik, hr⟩ := present_inv I hasc hnn idx h0 h1 hpresent
  refine ⟨k, by rw [hb, ho, hr], hk, ?_, ?_⟩
  · have hoff : a'.stIdx idx (stride : Int) = ((stride * k : Nat) : Int) := by
      obtain ⟨f1, f2, _, _⟩ := offsets_fit stride k I.length hk hfit
      have c2 : ((stride : Int) * (k : Int)) = ((stride * k : Nat) : Int) := by push_cast; rfl
      unfold Base.stIdx
      rw [hb, ho, hr]
      simp only
      rw [toInt32_natCast stride f1, c2, toInt32_natCast _ f2]
    rw [hoff]
    push_cast
    ring
  · intro hL
    have hs := (GetBytes_slice a' I stride hasc hnn hb ho hL hfit k hk).2
    rw [hik] at hs
    rw [hs, Nat.mul_comm]

/-- C18, witness: for three 4-byte elements at `[0, 5, 130]`, index 130 has
rank 2, byte offset 8, and the view is the bytes 8 to 11 of the buffer. -/
theorem GetBytes_offset_witness :
    ∃ a', Base.Init inferNone { Base.zero Nat with EltEncoder := some U32 }
        [0, 5, 130] [10, 20, 30] = some (a', none) ∧
      bitmap.Rank64 a'.Bitmaps a'.Offsets 130 = (2, 1) ∧ a'.stIdx 130 4 = 8 ∧
      a'.GetBytes 130 4 = some (some ((a'.Elts.drop 8).take 4)) := by
  have hinit := Init_ok inferNone { Base.zero Nat with EltEncoder := some U32 }
    [0, 5, 130] [10, 20, 30] U32 (by decide) (by decide) (by decide) (by decide) rfl
    (uniform_fits U32 _ 4 rfl (fun v _ => rfl) (by decide))
  obtain ⟨rank, h1, _, h3, h4⟩ := GetBytes_offset inferNone _ _ [0, 5, 130] [10, 20, 30] 4
    hinit (by decide) 130 (by decide)
  have hr : bitmap.Rank64
      (builtBase { Base.zero Nat with EltEncoder := some U32 } [0, 5, 130] [10, 20, 30]
        U32).Bitmaps
      (builtBase { Base.zero Nat with EltEncoder := some U32 } [0, 5, 130] [10, 20, 30]
        U32).Offsets 130 = (2, 1) := by decide
  have hrank : rank = 2 := by
    rw [hr] at h1
    have h2 : (2 : Int) = (rank : Int) := h1
    omega
  subst hrank
  exact ⟨_, hinit, hr, h3, h4 (by decide)⟩

/-- C18, counterexample: `2^29 + 1` four-byte elements at the indices
`0..2^29`, built by a successful `Init`.  Index `2^29` is present with rank
`2^29`; `rank * stride` is `2^31`, and the offset that `GetBytes` computes is
`-2^31`: the 32-bit product wraps. -/
theorem GetBytes_offset_fails :
    ∃ a', Base.Init inferNone { Base.zero Nat with EltEncoder := some U32 }
        (firstIndices 536870913) (List.replicate 536870913 0) = some (a', none) ∧
      bitmap.Rank64 a'.Bitmaps a'.Offsets 536870912 = (536870912, 1) ∧
      a'.stIdx 536870912 4 = -2147483648 ∧ (536870912 : Int) * 4 = 2147483648 := by
  have hlen : (firstIndices 536870913).length = (List.replicate 536870913 (0 : Nat)).length := by
    rw [firstIndices_length, List.length_replicate]
  have hne : firstIndices 536870913 ≠ [] := by
    intro h
    have := firstIndices_length 536870913
    rw [h] at this
    exact absurd this (by decide)
  have hk : 536870912 < (firstIndices 536870913).length := by
    rw [firstIndices_length]; decide
  have hr := Rank64_builtBase { Base.zero Nat with EltEncoder := some U32 }
    (firstIndices 536870913) (List.replicate 536870913 0) U32 (firstIndices_pairwise _)
    (firstIndices_nonneg _) 536870912 hk
  have hs := stIdx_builtBase { Base.zero Nat with EltEncoder := some U32 }
    (firstIndices 536870913) (List.replicate 536870913 0) U32 4 (firstIndices_pairwise _)
    (firstIndices_nonneg _) 536870912 hk
  rw [firstIndices_getElem] at hr hs
  have e : ((536870912 : Nat) : Int) = 536870912 := rfl
  rw [e] at hr hs
  refine ⟨_, Init_ok inferNone _ _ _ U32 hlen hne (firstIndices_pairwise _)
    (firstIndices_nonneg _) rfl
      (uniform_fits U32 _ 4 rfl (fun v _ => rfl)
        (by rw [List.length_replicate]; norm_num)), hr, ?_, by decide⟩
  rw [hs]
  decide


theorem countBelow_le (ps : List Nat) (n : Nat) : bitmap.countBelow ps n ≤ n := by
  unfold bitmap.countBelow
  calc ((List.range n).filter (fun p => decide (p ∈ ps))).length
      ≤ (List.range n).length := List.length_filter_le _ _
    _ = n := List.length_range n

/-- A strictly ascending sequence of non-negative `int32` values has at most
`2^31` entries. -/
theorem length_le_of_int32 (I : List Int) (hasc : I.Pairwise (· < ·))
    (hnn : ∀ x ∈ I, 0 ≤ x) (h32 : ∀ x ∈ I, x < 2 ^ 31) : I.length ≤ 2 ^ 31 := by
  have hp := positions_pairwise I hasc hnn
  have hlt : ∀ p ∈ positions I, p < 2 ^ 31 := by
    intro p hp2
    unfold positions at hp2
    rw [List.mem_map] at hp2
    obtain ⟨x, hx, rfl⟩ := hp2
    have := h32 x hx
    have := hnn x hx
    omega
  have h := bitmap.countBelow_length (positions I) hp (2 ^ 31) hlt
  have h2 := countBelow_le (positions I) (2 ^ 31)
  have h3 : (positions I).length = I.length := by simp [positions]
  omega

/-- The stride of a buffer that obeys the size law with an `int32` count. -/
theorem stride_of_size_law (n L : Nat) (stride : Int) (hn1 : 1 ≤ n) (hn2 : n ≤ 2 ^ 31)
    (hlen : (L : Int) = toInt32 (n : Int) * stride)
    (hfit : toInt32 (n : Int) * stride < 2 ^ 31) :
    ∃ s : Nat, stride = (s : Int) ∧ L = n * s ∧ n * s < 2 ^ 31 := by
  rcases Nat.lt_or_ge n (2 ^ 31) with hlt | hge
  · rw [toInt32_natCast n hlt] at hlen hfit
    have hs0 : 0 ≤ stride := by
      by_contra hc
      have h1 : stride ≤ -1 := by omega
      have h2 : (n : Int) * stride ≤ (n : Int) * (-1) :=
        mul_le_mul_of_nonneg_left h1 (Int.natCast_nonneg n)
      have h3 : (0 : Int) ≤ (L : Int) := Int.natCast_nonneg L
      have h4 : (1 : Int) ≤ (n : Int) := by exact_mod_cast hn1
      omega
    obtain ⟨s, rfl⟩ := Int.eq_ofNat_of_zero_le hs0
    refine ⟨s, rfl, ?_, ?_⟩
    · exact_mod_cast hlen
    · exact_mod_cast hfit
  · have hn : n = 2147483648 := by
      have : (2 : Nat) ^ 31 = 2147483648 := by norm_num
      omega
    subst hn
    have ht : toInt32 ((2147483648 : Nat) : Int) = -2147483648 := by decide
    rw [ht] at hlen hfit
    have hz : stride = 0 := by omega
    subst hz
    refine ⟨0, rfl, ?_, by norm_num⟩
    have : (L : Int) = 0 := by omega
    have hL0 : L = 0 := by exact_mod_cast this
    rw [hL0]

/-- C19: under the build invariants (`Bitmaps`, `Offsets` and `Cnt` produced by
`InitIndex` from a strictly ascending non-negative `int32` sequence,
`len(Elts) = Cnt * stride`, and `Cnt * stride < 2^31`), for every `idx` with
`0 <= idx < 64 * len(Bitmaps)`, `GetBytes(idx, stride)` does not panic, and
whenever the slice expression is reached it is in bounds: `0 <= stIdx`,
`0 <= stride` and `stIdx + stride <= len(Elts)`. -/
theorem GetBytes_in_bounds {V : Type} (a0 a1 a : Base V) (I : List Int) (stride : Int)
    (hidx : a0.InitIndex I = some (a1, none)) (h32 : ∀ x ∈ I, x < 2 ^ 31)
    (hb : a.Bitmaps = a1.Bitmaps) (ho : a.Offsets = a1.Offsets) (hc : a.Cnt = a1.Cnt)
    (hlen : (a.Elts.length : Int) = a.Cnt * stride) (hfit : a.Cnt * stride < 2 ^ 31)
    (idx : Int) (h0 : 0 ≤ idx) (h1 : idx < 64 * (a.Bitmaps.length : Int)) :
    a.GetBytes idx stride ≠ none ∧
      ((bitmap.Rank64 a.Bitmaps a.Offsets idx).2 ≠ 0 →
        0 ≤ a.stIdx idx stride ∧ 0 ≤ stride ∧
          a.stIdx idx stride + stride ≤ (a.Elts.length : Int)) := by
  obtain ⟨hasc, hnn, ha1⟩ := InitIndex_nil_inv a0 a1 I hidx
  have hb2 : a.Bitmaps = builtBitmaps I := by rw [hb, ha1]
  have ho2 : a.Offsets = builtOffsets I := by rw [ho, ha1]
  have hc2 : a.Cnt = toInt32 (I.length : Int) := by rw [hc, ha1]
  by_cases hbit : (bitmap.Rank64 a.Bitmaps a.Offsets idx).2 = 0
  · constructor
    · unfold Base.GetBytes
      simp only
      rw [if_pos hbit]
      simp
    · intro hc3
      exact absurd hbit hc3
  · have hbit2 := hbit
    rw [hb2, ho2] at hbit2
    rw [hb2] at h1
    obtain ⟨k, hk, hik, _⟩ := present_inv I hasc hnn idx h0 h1 hbit2
    rw [hc2] at hlen hfit
    obtain ⟨s, hs, hL, hfitN⟩ := stride_of_size_law I.length a.Elts.length stride
      (by omega) (length_le_of_int32 I hasc hnn h32) hlen hfit
    obtain ⟨g1, g2⟩ := GetBytes_slice a I s hasc hnn hb2 ho2 hL hfitN k hk
    rw [hik] at g1 g2
    subst hs
    obtain ⟨_, _, _, f4⟩ := offsets_fit s k I.length hk hfitN
    constructor
    · rw [g2]
      simp
    · intro _
      rw [g1, hL]
      refine ⟨Int.natCast_nonneg _, Int.natCast_nonneg _, ?_⟩
      exact_mod_cast f4

/-- C19, witness: the array of `I = [0, 5, 130]` with three 4-byte elements:
at index 130 the slice expression is reached with `stIdx = 8` and
`8 + 4 <= 12`; at index 6 it is not reached. -/
theorem GetBytes_in_bounds_witness :
    ∃ a1, (Base.zero Nat).InitIndex [0, 5, 130] = some (a1, none) ∧
      ({ a1 with Elts := [10, 0, 0, 0, 20, 0, 0, 0, 30, 0, 0, 0] } : Base Nat).GetBytes 130 4
        ≠ none ∧
      ({ a1 with Elts := [10, 0, 0, 0, 20, 0, 0, 0, 30, 0, 0, 0] } : Base Nat).stIdx 130 4 = 8 ∧
      ({ a1 with Elts := [10, 0, 0, 0, 20, 0, 0, 0, 30, 0, 0, 0] } : Base Nat).GetBytes 6 4
        ≠ none := by
  have hidx := InitIndex_ok (Base.zero Nat) [0, 5, 130] (by decide) (by decide)
  have h130 := GetBytes_in_bounds (Base.zero Nat) _
    ({ (Base.zero Nat) with
        Bitmaps := builtBitmaps [0, 5, 130]
        Offsets := builtOffsets [0, 5, 130]
        Cnt := toInt32 ([0, 5, 130] : List Int).length
        Elts := [10, 0, 0, 0, 20, 0, 0, 0, 30, 0, 0, 0] } : Base Nat)
    [0, 5, 130] 4 hidx (by decide) rfl rfl rfl (by decide) (by decide) 130
    (by decide) (by decide)
  have h6 := GetBytes_in_bounds (Base.zero Nat) _
    ({ (Base.zero Nat) with
        Bitmaps := builtBitmaps [0, 5, 130]
        Offsets := builtOffsets [0, 5, 130]
        Cnt := toInt32 ([0, 5, 130] : List Int).length
        Elts := [10, 0, 0, 0, 20, 0, 0, 0, 30, 0, 0, 0] } : Base Nat)
    [0, 5, 130] 4 hidx (by decide) rfl rfl rfl (by decide) (by decide) 6
    (by decide) (by decide)
  exact ⟨_, hidx, h130.1, by decide, h6.1⟩

end array

namespace marshal

theorem bytesLE_length (n v : Nat) : (bytesLE n v).length = n := by
  induction n generalizing v with
  | zero => rfl
  | succ n ih => simp [bytesLE, ih]

theorem bytesLE_getD (n v i : Nat) (hi : i < n) :
    (bytesLE n v).getD i 0 = v / 256 ^ i % 256 := by
  induction n generalizing v i with
  | zero => omega
  | succ n ih =>
    cases i with
    | zero => simp [bytesLE]
    | succ i =>
      simp only [bytesLE, List.getD_cons_succ]
      rw [ih (v / 256) i (by omega), Nat.div_div_eq_div_mul, pow_succ, Nat.mul_comm]

theorem readLE_bytesLE (n v : Nat) : readLE (bytesLE n v) = v % 256 ^ n := by
  induction n generalizing v with
  | zero => simp [bytesLE, readLE, Nat.mod_one]
  | succ n ih =>
    simp only [bytesLE, readLE]
    rw [ih (v / 256), pow_succ, Nat.mul_comm (256 ^ n) 256, Nat.mod_mul]


theorem Marshal_eq (inv : Inventory) (d : Int) (hw : inv.Decoder.bits / 8 = inv.ValLen) :
    Marshal inv d = some (bytesLE inv.ValLen (inv.EncodeCast.convert d).toNat) := by
  unfold Marshal PutUint
  simp only [hw, List.length_replicate, lt_irrefl, if_false]
  rw [List.drop_of_length_le (by simp), List.append_nil]

theorem Unmarshal_bytesLE (inv : Inventory) (x : Nat) (hw : inv.Decoder.bits / 8 = inv.ValLen) :
    Unmarshal inv (bytesLE inv.ValLen x)
      = some ((inv.ValLen : Int), inv.ValType.convert ((x % 256 ^ inv.ValLen : Nat) : Int)) := by
  unfold Unmarshal Uint
  have hl := bytesLE_length inv.ValLen x
  have ht : (bytesLE inv.ValLen x).take inv.ValLen = bytesLE inv.ValLen x :=
    List.take_of_length_le (le_of_eq hl)
  simp only [hl, lt_irrefl, if_false, ht, hw, readLE_bytesLE]

/-- The conversions of the six inventories: the unsigned cast of a value of
`ValType` is its two's-complement bit pattern, and the conversion back gives
the value. -/
theorem convert_roundtrip (inv : Inventory) (hinv : inv ∈ impls) (v : Int)
    (hv : inv.ValType.holds v) :
    inv.Decoder.bits / 8 = inv.ValLen ∧
      (inv.EncodeCast.convert v).toNat = (v % 2 ^ (8 * inv.ValLen)).toNat ∧
      inv.ValType.convert
        ((((inv.EncodeCast.convert v).toNat % 256 ^ inv.ValLen : Nat)) : Int) = v := by
  simp only [impls, List.mem_cons, List.mem_singleton, List.not_mem_nil, or_false] at hinv
  rcases hinv with rfl | rfl | rfl | rfl | rfl | rfl <;>
    simp only [GoInt.holds, GoInt.convert, GoInt.bits, GoInt.signed] at hv ⊢ <;>
    norm_num at hv ⊢ <;>
    omega


/-- C15: for each generated fixed-width codec (the six inventories of `impls`)
and every value `v` of its integer type: `Marshal(v)` is exactly `ValLen` bytes
holding the two's-complement bit pattern of `v` in little-endian order,
`GetSize(v)` and `GetMarshaledSize(Marshal(v))` return `ValLen`, and
`Unmarshal(Marshal(v)) = (ValLen, v)`. -/
theorem generated_codec_roundtrip (inv : Inventory) (hinv : inv ∈ impls) (v : Int)
    (hv : inv.ValType.holds v) :
    ∃ bs, Marshal inv v = some bs ∧ bs.length = inv.ValLen ∧
      (∀ i : Nat, i < inv.ValLen →
        bs.getD i 0 = (v % 2 ^ (8 * inv.ValLen)).toNat / 256 ^ i % 256) ∧
      GetSize inv v = (inv.ValLen : Int) ∧ GetMarshaledSize inv bs = (inv.ValLen : Int) ∧
      Unmarshal inv bs = some ((inv.ValLen : Int), v) := by
  obtain ⟨hw, hpat, hback⟩ := convert_roundtrip inv hinv v hv
  refine ⟨_, Marshal_eq inv v hw, bytesLE_length _ _, ?_, rfl, rfl, ?_⟩
  · intro i hi
    rw [bytesLE_getD _ _ i hi, hpat]
  · rw [Unmarshal_bytesLE inv _ hw, hback]

/-- C15, witness: the byte lengths are 2, 4, 8, 2, 4, 8; on the inputs of the
generated test, 0, 1, `0x1234` and the all-ones pattern, the codecs give the
bytes `0...`, `1, 0...`, `0x34, 0x12, 0...` and `0xff...`, and `Unmarshal`
gives the input back (shown for `I32` at `0x1234` through the theorem, and for
all six codecs by evaluation). -/
theorem generated_codec_roundtrip_witness :
    impls.map (fun inv => (inv.Name, inv.ValLen))
        = [("U16", 2), ("U32", 4), ("U64", 8), ("I16", 2), ("I32", 4), ("I64", 8)] ∧
      (∃ inv bs, impls[4]? = some inv ∧ inv.Name = "I32" ∧
          Marshal inv 0x1234 = some bs ∧ bs = [0x34, 0x12, 0, 0] ∧
          Unmarshal inv bs = some (4, 0x1234)) ∧
      impls.map (fun inv => (testInputs inv).map (fun d => Marshal inv d))
        = [ [some [0, 0], some [1, 0], some [0x34, 0x12], some [0xff, 0xff]],
            [some [0, 0, 0, 0], some [1, 0, 0, 0], some [0x34, 0x12, 0, 0],
              some [0xff, 0xff, 0xff, 0xff]],
            [some [0, 0, 0, 0, 0, 0, 0, 0], some [1, 0, 0, 0, 0, 0, 0, 0],
              some [0x34, 0x12, 0, 0, 0, 0, 0, 0],
              some [0xff, 0xff, 0xff, 0xff, 0xff, 0xff, 0xff, 0xff]],
            [some [0, 0], some [1, 0], some [0x34, 0x12], some [0xff, 0xff]],
            [some [0, 0, 0, 0], some [1, 0, 0, 0], some [0x34, 0x12, 0, 0],
              some [0xff, 0xff, 0xff, 0xff]],
            [some [0, 0, 0, 0, 0, 0, 0, 0], some [1, 0, 0, 0, 0, 0, 0, 0],
              some [0x34, 0x12, 0, 0, 0, 0, 0, 0],
              some [0xff, 0xff, 0xff, 0xff, 0xff, 0xff, 0xff, 0xff]] ] ∧
      impls.map (fun inv =>
          (testInputs inv).map (fun d => (Marshal inv d).bind (Unmarshal inv)))
        = impls.map (fun inv =>
          (testInputs inv).map (fun d => some ((inv.ValLen : Int), d))) := by
  refine ⟨by decide, ?_, by decide, by decide⟩
  have hmem : impls[4]? = some (impls[4]) := rfl
  obtain ⟨bs, h1, _, _, _, _, h6⟩ := generated_codec_roundtrip impls[4] (by decide)
    0x1234 (by decide)
  have hbs : bs = [0x34, 0x12, 0, 0] := by
    have h2 : Marshal impls[4] 0x1234 = some [0x34, 0x12, 0, 0] := by decide
    rw [h2] at h1
    injection h1 with h1
    exact h1.symm
  exact ⟨impls[4], bs, hmem, rfl, h1, hbs, h6⟩

end marshal
